import Mathlib

/-!
# gcache: a sharded in-memory cache with per-entry TTL

A shallow embedding of `gcache.go`.

* Keys are Go strings, i.e. arbitrary byte sequences: `List (Fin 256)`.
* `int` is the 64-bit signed integer of the usual Go targets, carried as an
  `Int`; `uint32(x)` is reduction modulo `2^32`.
* A `time.Time` is carried as the integer number of nanoseconds it denotes
  and a `time.Duration` as an integer number of nanoseconds; `Time.Sub`
  saturates at the largest and the smallest `Duration`, as the `time`
  package documents.
* `time.Now()` is an explicit argument of every operation that reads the clock.
* A run-time panic is the error of `Except Panic`.
* A `*shard` slot of the slice and the `items` map of a shard may be nil:
  both are `Option`s.
* The lock of a shard makes each of `Set`, `Get` and `evictExpiredItems` one
  atomic step on the shard; the background goroutines are the workers of
  `System`, which take their steps interleaved with the caller's.
-/

namespace Gcache

/-- Run-time panics of the Go code. -/
inductive Panic where
  | divideByZero
  | indexOutOfRange
  | makeSliceLenOutOfRange
  | nilDereference
  | nilMapWrite
  | nonPositiveTickerInterval
  deriving DecidableEq, Repr

/-- A Go string: a sequence of bytes. -/
abbrev Key := List (Fin 256)

/-- Largest `time.Duration`: `1<<63 - 1` nanoseconds. -/
def maxDuration : Int := 2 ^ 63 - 1

/-- Smallest `time.Duration`: `-1 << 63` nanoseconds. -/
def minDuration : Int := -(2 ^ 63)

/-- The method `t.Sub(u)` of `time.Time`: the duration `t - u`, or the largest
(smallest) duration when `t - u` does not fit one. -/
def timeSub (t u : Int) : Int :=
  if t - u > maxDuration then maxDuration
  else if t - u < minDuration then minDuration
  else t - u

/-- The conversion `uint32(x)` of an `int`. -/
def uint32 (x : Int) : Nat := (x % 2 ^ 32).toNat

/-- The struct `cacheItem[T]`. -/
structure cacheItem (T : Type) where
  value : T
  createdAt : Int
  ttl : Int
  deriving DecidableEq, Repr

/-- A non-nil `map[string]*cacheItem[T]`: a finite map with unique keys. -/
abbrev Items (T : Type) := AList (fun _ : Key => cacheItem T)

/-- The struct `shard[T]`; `items = none` is the nil map. The embedded
`sync.RWMutex` is what makes each operation on the shard atomic. -/
structure shard (T : Type) where
  items : Option (Items T)

/-- The struct `InMemoryCache[T]`. A slot of `shards` is a `*shard[T]`, nil
when `none`. `cancelled` is the state of `ctx`: whether `ctx.Done()` is
closed. -/
structure InMemoryCache (T : Type) where
  shards : List (Option (shard T))
  numShards : Int
  evictTime : Int
  cancelled : Bool

/-- One round of the loop of `fnv32`: `hash ^= uint32(key[i]); hash *= prime`
on `uint32`. -/
def fnv32Step (hash : Nat) (b : Fin 256) : Nat :=
  ((hash ^^^ b.val) * 16777619) % 2 ^ 32

/-- The loop `for i := 0; i < len(key); i++` of `fnv32`, from index `i` with
the current `hash`; `fuel` bounds the number of rounds still to run. -/
def fnv32Loop (key : Key) : Nat → Nat → Nat → Nat
  | 0, _, hash => hash
  | fuel + 1, i, hash =>
    if h : i < key.length then
      fnv32Loop key fuel (i + 1) (fnv32Step hash (key.get ⟨i, h⟩))
    else hash

/-- The function `fnv32`. The loop runs `len(key)` rounds at most. -/
def fnv32 (key : Key) : Nat :=
  fnv32Loop key key.length 0 2166136261

/-- The method `shardIndex`: `int(hash % uint32(c.numShards))`. The
remainder panics when the divisor is zero. -/
def InMemoryCache.shardIndex {T : Type} (c : InMemoryCache T) (key : Key) :
    Except Panic Int :=
  let hash := fnv32 key
  if uint32 c.numShards = 0 then .error .divideByZero
  else .ok (Int.ofNat (hash % uint32 c.numShards))

/-- The indexing `c.shards[i]` followed by a dereference of the `*shard`. -/
def InMemoryCache.shardAt {T : Type} (c : InMemoryCache T) (i : Int) :
    Except Panic (shard T) :=
  if i < 0 then .error .indexOutOfRange
  else
    match c.shards.get? i.toNat with
    | none => .error .indexOutOfRange
    | some none => .error .nilDereference
    | some (some sh) => .ok sh

/-- Store the shard `sh` through the pointer in slot `i`. -/
def InMemoryCache.putShard {T : Type} (c : InMemoryCache T) (i : Int) (sh : shard T) :
    InMemoryCache T :=
  { c with shards := c.shards.set i.toNat (some sh) }

/-- The map read `item, exists := shard.items[key]`: `none` when `exists` is
false. A read of a nil map finds nothing. -/
def shard.find {T : Type} (sh : shard T) (key : Key) : Option (cacheItem T) :=
  match sh.items with
  | none => none
  | some items => items.lookup key

/-- The method `Set`, run at the instant `now`. When the key exists the item
behind the pointer is overwritten field by field; otherwise a new item is
stored, which panics on a nil map. -/
def InMemoryCache.Set {T : Type} (c : InMemoryCache T) (key : Key) (value : T)
    (ttl : Int) (now : Int) : Except Panic (InMemoryCache T) := do
  let shardIndex ← c.shardIndex key
  let sh ← c.shardAt shardIndex
  match sh.find key with
  | some item =>
    .ok (c.putShard shardIndex
      { items := sh.items.map (fun items => items.replace key
          { item with value := value, createdAt := now, ttl := ttl }) })
  | none =>
    match sh.items with
    | none => .error .nilMapWrite
    | some items =>
      .ok (c.putShard shardIndex
        { items := some (items.insert key
            { value := value, createdAt := now, ttl := ttl }) })

/-- The method `Get`; `default` is the zero value of `T`. -/
def InMemoryCache.Get {T : Type} [Inhabited T] (c : InMemoryCache T) (key : Key) :
    Except Panic (T × Bool) := do
  let shardIndex ← c.shardIndex key
  let sh ← c.shardAt shardIndex
  match sh.find key with
  | none => .ok (default, false)
  | some item => .ok (item.value, true)

/-- The method `Stop`: `c.cancel()`. -/
def InMemoryCache.Stop {T : Type} (c : InMemoryCache T) : InMemoryCache T :=
  { c with cancelled := true }

/-- The body of the `range` loop of `evictExpiredItems` over the entries
`visit`, in that order, on the map `items`. -/
def evictLoop {T : Type} (now : Int) :
    List (Sigma (fun _ : Key => cacheItem T)) → Items T → Items T
  | [], items => items
  | ⟨key, item⟩ :: visit, items =>
    if timeSub now item.createdAt > item.ttl then
      evictLoop now visit (items.erase key)
    else evictLoop now visit items

/-- The method `evictExpiredItems`, run at the instant `now`. The loop visits
the entries the map holds when it starts; ranging over a nil map visits
nothing. -/
def InMemoryCache.evictExpiredItems {T : Type} (c : InMemoryCache T) (shardIndex : Int)
    (now : Int) : Except Panic (InMemoryCache T) := do
  let sh ← c.shardAt shardIndex
  match sh.items with
  | none => .ok c
  | some items =>
    .ok (c.putShard shardIndex { items := some (evictLoop now items.entries items) })

/-- The loop `for i := 0; i < numShards; i++` of `NewInMemoryCache`, from
index `i`, with `fuel` rounds still to run. -/
def initShards {T : Type} (numShards : Int) :
    Nat → Nat → List (Option (shard T)) → List (Option (shard T))
  | 0, _, shards => shards
  | fuel + 1, i, shards =>
    if (i : Int) < numShards then
      initShards numShards fuel (i + 1) (shards.set i (some { items := some ∅ }))
    else shards

/-- The function `NewInMemoryCache`, up to the goroutines that
`StartEviction` spawns (they are the workers of `System`).
`make([]*shard[T], numShards)` panics on a negative length and otherwise
yields `numShards` nil pointers. -/
def NewInMemoryCache {T : Type} (numShards : Int) (evictTime : Int) :
    Except Panic (InMemoryCache T) :=
  if numShards < 0 then .error .makeSliceLenOutOfRange
  else
    .ok { shards := initShards numShards numShards.toNat 0
            (List.replicate numShards.toNat none)
          numShards := numShards
          evictTime := evictTime
          cancelled := false }

/-- The item stored under `key` in the shard that owns `key`, if any: what
the map read of `Get` sees. -/
def InMemoryCache.find {T : Type} (c : InMemoryCache T) (key : Key) :
    Except Panic (Option (cacheItem T)) := do
  let shardIndex ← c.shardIndex key
  let sh ← c.shardAt shardIndex
  .ok (sh.find key)

/-- One operation on a cache: a call of `Set` at an instant, a call of `Get`,
one sweep of a shard by its background goroutine at an instant, or a call of
`Stop`. -/
inductive Op (T : Type) where
  | set (key : Key) (value : T) (ttl : Int) (now : Int)
  | get (key : Key)
  | evict (shardIndex : Int) (now : Int)
  | stop

/-- The cache after one operation. -/
def InMemoryCache.apply {T : Type} [Inhabited T] (c : InMemoryCache T) :
    Op T → Except Panic (InMemoryCache T)
  | .set key value ttl now => c.Set key value ttl now
  | .get key => (c.Get key).map (fun _ => c)
  | .evict shardIndex now => c.evictExpiredItems shardIndex now
  | .stop => .ok c.Stop

/-- The cache after a sequence of operations, each atomic, in order. -/
def InMemoryCache.run {T : Type} [Inhabited T] (c : InMemoryCache T) :
    List (Op T) → Except Panic (InMemoryCache T)
  | [] => .ok c
  | op :: ops => (c.apply op).bind (fun c1 => c1.run ops)

/-- The operation is a call of `Set` on `key`. -/
def Op.setsKey {T : Type} (key : Key) : Op T → Bool
  | .set k _ _ _ => decide (k = key)
  | _ => false

/-- The operation is a sweep of shard `i`. -/
def Op.sweeps {T : Type} (i : Int) : Op T → Bool
  | .evict j _ => decide (j = i)
  | _ => false

/-- The operation is a sweep of shard `i` at an instant at which an item
created at `createdAt` with the given `ttl` counts as expired. -/
def Op.sweepsExpired {T : Type} (i : Int) (createdAt ttl : Int) : Op T → Bool
  | .evict j now => decide (j = i) && decide (timeSub now createdAt > ttl)
  | _ => false

/-- How an operation that writes at most the shard in slot `i` relates the
cache before and after: the fields other than the slice are kept, slot `i`
holds `sh1` and every other slot reads as before. -/
structure WritesSlot {T : Type} (c c1 : InMemoryCache T) (i : Int) (sh1 : shard T) : Prop where
  numShards_eq : c1.numShards = c.numShards
  evictTime_eq : c1.evictTime = c.evictTime
  cancelled_eq : c1.cancelled = c.cancelled
  length_eq : c1.shards.length = c.shards.length
  shardAt_eq : ∀ j, c1.shardAt j = if j = i then .ok sh1 else c.shardAt j

/-- The state `NewInMemoryCache` establishes for a positive shard count: the
slice has `numShards` slots and every slot points to a shard with a non-nil
map. -/
structure InMemoryCache.Ready {T : Type} (c : InMemoryCache T) : Prop where
  numShards_pos : 1 ≤ c.numShards
  length_eq : (c.shards.length : Int) = c.numShards
  slots : ∀ s ∈ c.shards, ∃ items : Items T, s = some { items := some items }

/-! ## The background goroutines

`StartEviction` spawns one goroutine per shard, running
`startShardEviction(i)`. A goroutine is at one of four places. The steps of
the goroutines, of the tickers and of the caller interleave; the lock of a
shard makes the body of `evictExpiredItems` one step. -/

/-- Where the goroutine of `startShardEviction` stands. -/
inductive WorkerPc where
  /-- Spawned; `time.NewTicker` not yet called. -/
  | created
  /-- Blocked in, or about to evaluate, the `select`. -/
  | selecting
  /-- The `select` took `case <-ticker.C`; `evictExpiredItems` not yet run. -/
  | sweeping
  /-- The `select` took `case <-c.ctx.Done()`: returned, ticker stopped. -/
  | exited
  deriving DecidableEq, Repr

/-- One goroutine of `startShardEviction`; `tick` tells whether the channel
`ticker.C`, of capacity one, holds a tick. -/
structure Worker where
  pc : WorkerPc
  tick : Bool
  deriving DecidableEq, Repr

/-- A cache together with its goroutines: worker `i` runs
`startShardEviction(i)`. -/
structure System (T : Type) where
  cache : InMemoryCache T
  workers : List Worker

/-- `NewInMemoryCache` with the goroutines of `StartEviction`: the loop
`for i := 0; i < c.numShards; i++` spawns one per shard. -/
def NewSystem {T : Type} (numShards : Int) (evictTime : Int) : Except Panic (System T) :=
  (NewInMemoryCache numShards evictTime).map (fun c =>
    { cache := c, workers := List.replicate numShards.toNat { pc := .created, tick := false } })

/-- One atomic step of the system. -/
inductive Action (T : Type) where
  /-- The caller runs `Set` at the instant `now`. -/
  | callSet (key : Key) (value : T) (ttl : Int) (now : Int)
  /-- The caller runs `Get`. -/
  | callGet (key : Key)
  /-- The caller runs `Stop`. -/
  | callStop
  /-- Worker `i` runs `time.NewTicker(c.evictTime)`. -/
  | newTicker (i : Nat)
  /-- The ticker of worker `i` sends on `ticker.C`. -/
  | tick (i : Nat)
  /-- The `select` of worker `i` takes `case <-ticker.C`. -/
  | selectTicker (i : Nat)
  /-- The `select` of worker `i` takes `case <-c.ctx.Done()`. -/
  | selectDone (i : Nat)
  /-- Worker `i` runs `c.evictExpiredItems(i)` at the instant `now`. -/
  | evict (i : Nat) (now : Int)

/-- Replace worker `i`. -/
def System.setWorker {T : Type} (s : System T) (i : Nat) (w : Worker) : System T :=
  { s with workers := s.workers.set i w }

/-- One step: `none` when the action cannot be taken in this state, `some
(.error p)` when taking it panics, which ends the process. A `select` with
both channels ready may take either case; a tick sent to a full channel is
dropped; `time.NewTicker` panics on a non-positive interval. -/
def System.step {T : Type} [Inhabited T] (s : System T) :
    Action T → Option (Except Panic (System T))
  | .callSet key value ttl now =>
    some ((s.cache.Set key value ttl now).map (fun c => { s with cache := c }))
  | .callGet key => some ((s.cache.Get key).map (fun _ => s))
  | .callStop => some (.ok { s with cache := s.cache.Stop })
  | .newTicker i =>
    match s.workers.get? i with
    | some w =>
      if w.pc = .created then
        if s.cache.evictTime ≤ 0 then some (.error .nonPositiveTickerInterval)
        else some (.ok (s.setWorker i { w with pc := .selecting }))
      else none
    | none => none
  | .tick i =>
    match s.workers.get? i with
    | some w =>
      if w.pc = .selecting ∨ w.pc = .sweeping then
        some (.ok (s.setWorker i { w with tick := true }))
      else none
    | none => none
  | .selectTicker i =>
    match s.workers.get? i with
    | some w =>
      if w.pc = .selecting ∧ w.tick = true then
        some (.ok (s.setWorker i { pc := .sweeping, tick := false }))
      else none
    | none => none
  | .selectDone i =>
    match s.workers.get? i with
    | some w =>
      if w.pc = .selecting ∧ s.cache.cancelled = true then
        some (.ok (s.setWorker i { w with pc := .exited }))
      else none
    | none => none
  | .evict i now =>
    match s.workers.get? i with
    | some w =>
      if w.pc = .sweeping then
        some ((s.cache.evictExpiredItems (i : Int) now).map (fun c =>
          { cache := c, workers := s.workers.set i { w with pc := .selecting } }))
      else none
    | none => none

/-- The state after a sequence of steps, when each can be taken and none
panics. -/
def System.exec {T : Type} [Inhabited T] (s : System T) : List (Action T) → Option (System T)
  | [] => some s
  | a :: as =>
    match s.step a with
    | some (.ok s1) => s1.exec as
    | _ => none

/-- The step is a call of `Set` on `key`. -/
def Action.setsKey {T : Type} (key : Key) : Action T → Bool
  | .callSet k _ _ _ => decide (k = key)
  | _ => false

/-- The step is a sweep by worker `i`. -/
def Action.sweeps {T : Type} (i : Nat) : Action T → Bool
  | .evict j _ => decide (j = i)
  | _ => false

/-- The operation on the cache that a step performs, if any. -/
def Action.op {T : Type} : Action T → Option (Op T)
  | .callSet key value ttl now => some (.set key value ttl now)
  | .callGet key => some (.get key)
  | .callStop => some .stop
  | .evict i now => some (.evict (i : Int) now)
  | _ => none

/-- The worker `i` has returned from `startShardEviction`. -/
def System.hasExited {T : Type} (s : System T) (i : Nat) : Prop :=
  (s.workers.get? i).map Worker.pc = some .exited

/-- Every key stored in a slot is a key that `shardIndex` sends to that
slot. -/
def InMemoryCache.Placed {T : Type} (c : InMemoryCache T) : Prop :=
  ∀ (j : Nat) (sh : shard T) (key : Key) (item : cacheItem T),
    c.shards.get? j = some (some sh) → sh.find key = some item →
      c.shardIndex key = .ok (j : Int)

/-- A call of `Set` at an instant, or a sweep of the whole cache: every
shard swept at the same instant. -/
inductive TimedOp (T : Type) where
  | set (key : Key) (value : T) (ttl : Int) (now : Int)
  | sweep (now : Int)

/-- The sweeps of the shards `is`, in order, at the instant `now`. -/
def sweepsOf {T : Type} (now : Int) (is : List Nat) : List (Op T) :=
  is.map (fun i => Op.evict (i : Int) now)

/-- The sweep of every shard of the cache, `evictExpiredItems(0)` to
`evictExpiredItems(numShards - 1)`, at the instant `now`. -/
def InMemoryCache.sweepAll {T : Type} [Inhabited T] (c : InMemoryCache T) (now : Int) :
    Except Panic (InMemoryCache T) :=
  c.run (sweepsOf now (List.range c.numShards.toNat))

/-- The cache after a timed operation. -/
def InMemoryCache.applyTimed {T : Type} [Inhabited T] (c : InMemoryCache T) :
    TimedOp T → Except Panic (InMemoryCache T)
  | .set key value ttl now => c.Set key value ttl now
  | .sweep now => c.sweepAll now

/-- The cache after a sequence of timed operations. -/
def InMemoryCache.runTimed {T : Type} [Inhabited T] (c : InMemoryCache T) :
    List (TimedOp T) → Except Panic (InMemoryCache T)
  | [] => .ok c
  | op :: ops => (c.applyTimed op).bind (fun c1 => c1.runTimed ops)

/-! ## Sample values -/

/-- The value of a computation that did not panic, else `d`. -/
def valueOr {α : Type} (d : α) : Except Panic α → α
  | .ok a => a
  | .error _ => d

/-- The key `"foo"`. -/
def foo : Key := [102, 111, 111]

/-- The key `"b"`. -/
def keyB : Key := [98]

/-- The cache with no shard. -/
def noShards : InMemoryCache Nat :=
  { shards := [], numShards := 0, evictTime := 1000000000, cancelled := false }

/-- The cache of the test: `NewInMemoryCache(4, time.Second)`. -/
def cache4 : InMemoryCache Nat := valueOr noShards (NewInMemoryCache 4 1000000000)

/-- The cache `cache4` after `Set("foo", 7, 2s)` at the instant 0. -/
def cacheA : InMemoryCache Nat := valueOr noShards (cache4.Set foo 7 2000000000 0)

/-- Some operations without a `Set` of `"foo"`; the sweep of shard 3, the
shard of `"foo"`, runs one second after the instant 0. -/
def opsBefore : List (Op Nat) :=
  [.get foo, .evict 3 1000000000, .set keyB 1 5 100, .stop]

/-- The cache `cacheA` after `opsBefore`. -/
def cacheB : InMemoryCache Nat := valueOr noShards (cacheA.run opsBefore)

/-- The shard of `"foo"` in `cacheB`. -/
def shardB : shard Nat := valueOr { items := none } (cacheB.shardAt 3)

/-- The cache `cacheB` after a sweep of shard 3 three seconds after the
instant 0. -/
def cacheC : InMemoryCache Nat := valueOr noShards (cacheB.evictExpiredItems 3 3000000000)

/-- Some operations without a `Set` of `"foo"`. -/
def opsAfter : List (Op Nat) := [.evict 3 4000000000, .set keyB 2 5 100, .get foo]

/-- The cache `cacheC` after `opsAfter`. -/
def cacheD : InMemoryCache Nat := valueOr noShards (cacheC.run opsAfter)

/-- The cache `cacheB` after `Set("foo", 8, 2s)` at the instant 1.5s. -/
def cacheOver : InMemoryCache Nat := valueOr noShards (cacheB.Set foo 8 2000000000 1500000000)

/-- Some operations without a `Set` of `"foo"`; the sweep of shard 3 runs
three seconds after the instant 0, 1.5 seconds after the instant 1.5s. -/
def opsOver : List (Op Nat) := [.evict 3 3000000000, .get foo, .evict 2 9000000000]

/-- The cache `cacheOver` after `opsOver`. -/
def cacheOver1 : InMemoryCache Nat := valueOr noShards (cacheOver.run opsOver)

/-- The cache `cache4` after `Set("foo", 7, -5ns)` at the instant 0. -/
def cacheNeg : InMemoryCache Nat := valueOr noShards (cache4.Set foo 7 (-5) 0)

/-- Some operations that neither set `"foo"` nor sweep shard 3, long after
the instant 0. -/
def opsLate : List (Op Nat) :=
  [.evict 0 1000000000000, .set keyB 1 5 100, .get foo, .stop, .evict 1 1000000000000000]

/-- The cache `cacheNeg` after `opsLate`. -/
def cacheNeg1 : InMemoryCache Nat := valueOr noShards (cacheNeg.run opsLate)

/-- The system of `NewInMemoryCache(1, time.Second)`. -/
def system1 : System Nat :=
  valueOr { cache := noShards, workers := [] } (NewSystem 1 1000000000)

/-- The system `system1` once its worker has exited: ticker created, `Stop`
called, cancellation observed. -/
def systemStopped : System Nat :=
  (system1.exec [.newTicker 0, .callStop, .selectDone 0]).getD system1

/-- The system `systemStopped` after `Set("foo", 7, 0)` at the instant 10. -/
def systemSet : System Nat :=
  (systemStopped.exec [.callSet foo 7 0 10]).getD system1

/-- Some steps without a `Set` of `"foo"`. -/
def stepsAfter : List (Action Nat) := [.callGet foo, .callSet keyB 1 5 100, .callStop]

/-- The system `systemSet` after `stepsAfter`. -/
def systemLate : System Nat := (systemSet.exec stepsAfter).getD system1

/-- The key `"d"`, which shares shard 3 of four with `"foo"`. -/
def keyD : Key := [100]

/-- The cache `cacheA` after `Set("d", 9, 1s)` at the instant 5. -/
def cacheAD : InMemoryCache Nat := valueOr noShards (cacheA.Set keyD 9 1000000000 5)

/-- Some timed operations: two keys set, a sweep that expires one of them,
an overwrite, a later sweep. -/
def timedOps : List (TimedOp Nat) :=
  [.set foo 7 2000000000 0, .set keyB 1 5 100, .sweep 1000000000,
    .set keyD 9 5000000000 1500000000, .set foo 8 2000000000 1500000000,
    .sweep 3000000000]

/-- The single-shard cache: `NewInMemoryCache(1, time.Second)`. -/
def cache1 : InMemoryCache Nat := valueOr noShards (NewInMemoryCache 1 1000000000)

/-- The cache `cache4` after `timedOps`. -/
def cache4Timed : InMemoryCache Nat := valueOr noShards (cache4.runTimed timedOps)

/-- The cache `cache1` after `timedOps`. -/
def cache1Timed : InMemoryCache Nat := valueOr noShards (cache1.runTimed timedOps)

/-! ## The hash -/

theorem fnv32Loop_eq_foldl (key : Key) :
    ∀ (fuel i hash : Nat), key.length ≤ fuel + i →
      fnv32Loop key fuel i hash = (key.drop i).foldl fnv32Step hash := by
  intro fuel
  induction fuel with
  | zero =>
    intro i hash h
    simp only [fnv32Loop]
    rw [List.drop_eq_nil_of_le (by omega)]
    rfl
  | succ fuel ih =>
    intro i hash h
    simp only [fnv32Loop]
    split
    · rename_i hlt
      rw [ih (i + 1) _ (by omega), List.drop_eq_getElem_cons hlt]
      rfl
    · rw [List.drop_eq_nil_of_le (by omega)]
      rfl

theorem fnv32_eq_foldl (key : Key) : fnv32 key = key.foldl fnv32Step 2166136261 := by
  unfold fnv32
  rw [fnv32Loop_eq_foldl key key.length 0 _ (by omega)]
  simp

theorem uint32_lt (x : Int) : uint32 x < 2 ^ 32 := by
  unfold uint32
  have h1 : 0 ≤ x % 2 ^ 32 := Int.emod_nonneg _ (by norm_num)
  have h2 : x % 2 ^ 32 < 2 ^ 32 := Int.emod_lt_of_pos _ (by norm_num)
  omega

theorem uint32_of_lt (x : Int) (h0 : 0 ≤ x) (h : x < 2 ^ 32) : (uint32 x : Int) = x := by
  unfold uint32
  rw [Int.emod_eq_of_lt h0 h]
  omega

theorem uint32_le (x : Int) (h0 : 0 ≤ x) : (uint32 x : Int) ≤ x := by
  unfold uint32
  have h1 : 0 ≤ x % 2 ^ 32 := Int.emod_nonneg _ (by norm_num)
  have h2 : x % 2 ^ 32 ≤ x := by
    have := Int.emod_add_ediv x (2 ^ 32)
    have h3 : 0 ≤ x / 2 ^ 32 := Int.ediv_nonneg h0 (by norm_num)
    nlinarith
  omega

/-- The method `Sub` is the exact difference whenever that difference is a
`Duration`. -/
theorem timeSub_eq_sub (t u : Int) (h1 : minDuration ≤ t - u) (h2 : t - u ≤ maxDuration) :
    timeSub t u = t - u := by
  unfold timeSub
  rw [if_neg (by omega), if_neg (by omega)]

/-! ## The map of a shard -/

theorem kreplace_cons_eq {T : Type} (key : Key) (a b : cacheItem T)
    (l : List (Sigma (fun _ : Key => cacheItem T))) :
    List.kreplace key b (⟨key, a⟩ :: l) = ⟨key, b⟩ :: l := by
  unfold List.kreplace
  exact List.lookmap_cons_some _ l (by simp)

theorem kreplace_cons_ne {T : Type} (key k : Key) (a b : cacheItem T)
    (l : List (Sigma (fun _ : Key => cacheItem T))) (h : key ≠ k) :
    List.kreplace key b (⟨k, a⟩ :: l) = ⟨k, a⟩ :: List.kreplace key b l := by
  unfold List.kreplace
  exact List.lookmap_cons_none _ l (by simp [h])

theorem dlookup_kreplace_self {T : Type} (key : Key) (b : cacheItem T) :
    ∀ (l : List (Sigma (fun _ : Key => cacheItem T))), key ∈ l.keys →
      List.dlookup key (List.kreplace key b l) = some b := by
  intro l
  induction l with
  | nil => intro h; simp at h
  | cons s l ih =>
    intro h
    obtain ⟨k, a⟩ := s
    by_cases hk : key = k
    · subst hk
      rw [kreplace_cons_eq]
      simp
    · rw [kreplace_cons_ne _ _ _ _ _ hk, List.dlookup_cons_ne _ _ hk]
      have : key ∈ l.keys := by
        simp only [List.keys_cons, List.mem_cons] at h
        rcases h with h | h
        · exact absurd h hk
        · exact h
      exact ih this

theorem dlookup_kreplace_ne {T : Type} (key key' : Key) (b : cacheItem T) (hne : key' ≠ key) :
    ∀ (l : List (Sigma (fun _ : Key => cacheItem T))),
      List.dlookup key' (List.kreplace key b l) = List.dlookup key' l := by
  intro l
  induction l with
  | nil => simp [List.kreplace]
  | cons s l ih =>
    obtain ⟨k, a⟩ := s
    by_cases hk : key = k
    · subst hk
      rw [kreplace_cons_eq, List.dlookup_cons_ne _ _ hne, List.dlookup_cons_ne _ _ hne]
    · rw [kreplace_cons_ne _ _ _ _ _ hk]
      by_cases hk' : key' = k
      · subst hk'
        simp
      · rw [List.dlookup_cons_ne _ _ hk', List.dlookup_cons_ne _ _ hk']
        exact ih

theorem lookup_replace_self {T : Type} (items : Items T) (key : Key) (a b : cacheItem T)
    (h : items.lookup key = some a) : (items.replace key b).lookup key = some b := by
  have hm : key ∈ items := AList.lookup_isSome.mp (by simp [h])
  exact dlookup_kreplace_self key b items.entries hm

theorem lookup_replace_ne {T : Type} (items : Items T) (key key' : Key) (b : cacheItem T)
    (h : key' ≠ key) : (items.replace key b).lookup key' = items.lookup key' :=
  dlookup_kreplace_ne key key' b h items.entries


/-- What the loop of `evictExpiredItems` leaves under a key, whatever entries
it visits. -/
theorem lookup_evictLoop {T : Type} (now : Int) (k : Key) :
    ∀ (visit : List (Sigma (fun _ : Key => cacheItem T))) (items : Items T),
      (evictLoop now visit items).lookup k =
        if ∃ e ∈ visit, e.1 = k ∧ timeSub now e.2.createdAt > e.2.ttl then none
        else items.lookup k := by
  intro visit
  induction visit with
  | nil => intro items; simp [evictLoop]
  | cons e visit ih =>
    intro items
    obtain ⟨key, item⟩ := e
    have hex : (∃ e ∈ (⟨key, item⟩ : Sigma (fun _ : Key => cacheItem T)) :: visit,
          e.1 = k ∧ timeSub now e.2.createdAt > e.2.ttl) ↔
        ((key = k ∧ timeSub now item.createdAt > item.ttl) ∨
          ∃ e ∈ visit, e.1 = k ∧ timeSub now e.2.createdAt > e.2.ttl) := by
      constructor
      · rintro ⟨e, he, h1, h2⟩
        rcases List.mem_cons.mp he with rfl | he
        · exact Or.inl ⟨h1, h2⟩
        · exact Or.inr ⟨e, he, h1, h2⟩
      · rintro (⟨h1, h2⟩ | ⟨e, he, h1, h2⟩)
        · exact ⟨_, List.mem_cons_self _ _, h1, h2⟩
        · exact ⟨e, List.mem_cons_of_mem _ he, h1, h2⟩
    simp only [evictLoop]
    by_cases hexp : timeSub now item.createdAt > item.ttl
    · rw [if_pos hexp, ih]
      by_cases hk : key = k
      · subst hk
        rw [if_pos (hex.mpr (Or.inl ⟨rfl, hexp⟩)), AList.lookup_erase]
        split <;> rfl
      · have hk2 : k ≠ key := fun h => hk h.symm
        rw [AList.lookup_erase_ne hk2]
        by_cases hr : ∃ e ∈ visit, e.1 = k ∧ timeSub now e.2.createdAt > e.2.ttl
        · rw [if_pos hr, if_pos (hex.mpr (Or.inr hr))]
        · rw [if_neg hr, if_neg]
          rw [hex]
          rintro (⟨h1, _⟩ | h)
          · exact hk h1
          · exact hr h
    · rw [if_neg hexp, ih]
      by_cases hr : ∃ e ∈ visit, e.1 = k ∧ timeSub now e.2.createdAt > e.2.ttl
      · rw [if_pos hr, if_pos (hex.mpr (Or.inr hr))]
      · rw [if_neg hr, if_neg]
        rw [hex]
        rintro (⟨_, h2⟩ | h)
        · exact hexp h2
        · exact hr h

/-- The loop of `evictExpiredItems` keeps under each key the item that was
there, unless it is expired, in whatever order it visits the entries of the
map: the order of a `range` over a map is not specified. -/
theorem lookup_evictLoop_of_perm {T : Type} (now : Int) (k : Key) (items : Items T)
    (visit : List (Sigma (fun _ : Key => cacheItem T))) (hv : visit.Perm items.entries) :
    (evictLoop now visit items).lookup k =
      (items.lookup k).filter (fun it => decide (timeSub now it.createdAt ≤ it.ttl)) := by
  rw [lookup_evictLoop]
  cases hl : items.lookup k with
  | none =>
    have hk : k ∉ items := AList.lookup_eq_none.mp hl
    simp
  | some it =>
    have hmem : (⟨k, it⟩ : Sigma (fun _ : Key => cacheItem T)) ∈ visit :=
      hv.mem_iff.mpr (AList.mem_lookup_iff.mp hl)
    by_cases hexp : timeSub now it.createdAt > it.ttl
    · rw [if_pos ⟨⟨k, it⟩, hmem, rfl, hexp⟩]
      have hle : ¬ timeSub now it.createdAt ≤ it.ttl := by omega
      simp [Option.filter, hle]
    · rw [if_neg]
      · have hle : timeSub now it.createdAt ≤ it.ttl := by omega
        simp [Option.filter, hle]
      · rintro ⟨⟨k2, it2⟩, hm2, hk2, hexp2⟩
        simp only at hk2
        subst hk2
        have : items.lookup k2 = some it2 := AList.mem_lookup_iff.mpr (hv.mem_iff.mp hm2)
        rw [hl] at this
        cases this
        exact hexp hexp2

theorem lookup_evictLoop_entries {T : Type} (now : Int) (k : Key) (items : Items T) :
    (evictLoop now items.entries items).lookup k =
      (items.lookup k).filter (fun it => decide (timeSub now it.createdAt ≤ it.ttl)) :=
  lookup_evictLoop_of_perm now k items items.entries (List.Perm.refl _)

/-! ## Slots of the shard slice -/

theorem shardIndex_congr {T : Type} (c c1 : InMemoryCache T) (h : c1.numShards = c.numShards)
    (key : Key) : c1.shardIndex key = c.shardIndex key := by
  unfold InMemoryCache.shardIndex
  rw [h]

theorem shardAt_putShard {T : Type} (c : InMemoryCache T) (i j : Int) (sh0 sh : shard T)
    (h : c.shardAt i = .ok sh0) :
    (c.putShard i sh).shardAt j = if j = i then .ok sh else c.shardAt j := by
  unfold InMemoryCache.shardAt at h
  by_cases hi : i < 0
  · rw [if_pos hi] at h
    cases h
  · rw [if_neg hi] at h
    have hlen : i.toNat < c.shards.length := by
      by_contra hcon
      rw [List.get?_eq_none.mpr (by omega)] at h
      cases h
    by_cases hji : j = i
    · subst hji
      rw [if_pos rfl]
      unfold InMemoryCache.shardAt InMemoryCache.putShard
      rw [if_neg hi]
      simp [List.getElem?_set, hlen]
    · rw [if_neg hji]
      unfold InMemoryCache.shardAt InMemoryCache.putShard
      by_cases hj : j < 0
      · rw [if_pos hj, if_pos hj]
      · rw [if_neg hj, if_neg hj]
        have hne : i.toNat ≠ j.toNat := by omega
        simp [List.getElem?_set, hne]

theorem writesSlot_putShard {T : Type} (c : InMemoryCache T) (i : Int) (sh0 sh : shard T)
    (h : c.shardAt i = .ok sh0) : WritesSlot c (c.putShard i sh) i sh where
  numShards_eq := rfl
  evictTime_eq := rfl
  cancelled_eq := rfl
  length_eq := by simp [InMemoryCache.putShard]
  shardAt_eq := fun j => shardAt_putShard c i j sh0 sh h

theorem writesSlot_refl {T : Type} (c : InMemoryCache T) (i : Int) (sh : shard T)
    (h : c.shardAt i = .ok sh) : WritesSlot c c i sh where
  numShards_eq := rfl
  evictTime_eq := rfl
  cancelled_eq := rfl
  length_eq := rfl
  shardAt_eq := fun j => by
    by_cases hj : j = i
    · rw [if_pos hj, hj, h]
    · rw [if_neg hj]

/-- What a successful `Set` did. -/
theorem Set_spec {T : Type} (c c1 : InMemoryCache T) (key : Key) (value : T) (ttl now : Int)
    (h : c.Set key value ttl now = .ok c1) :
    ∃ i sh sh1, c.shardIndex key = .ok i ∧ c.shardAt i = .ok sh ∧ WritesSlot c c1 i sh1 ∧
      sh1.find key = some ⟨value, now, ttl⟩ ∧ ∀ k, k ≠ key → sh1.find k = sh.find k := by
  unfold InMemoryCache.Set at h
  cases hi : c.shardIndex key with
  | error e => rw [hi] at h; cases h
  | ok i =>
    cases hs : c.shardAt i with
    | error e => rw [hi] at h; simp only [bind, Except.bind] at h; rw [hs] at h; cases h
    | ok sh =>
      rw [hi] at h
      simp only [bind, Except.bind] at h
      rw [hs] at h
      simp only at h
      refine ⟨i, sh, ?_⟩
      cases hf : sh.find key with
      | some item =>
        rw [hf] at h
        simp only [Except.ok.injEq] at h
        subst h
        refine ⟨_, rfl, hs, writesSlot_putShard c i sh _ hs, ?_, ?_⟩
        · cases hit : sh.items with
          | none => simp [shard.find, hit] at hf
          | some items =>
            simp only [shard.find, hit] at hf
            simp only [shard.find, Option.map_some']
            exact lookup_replace_self items key item _ hf
        · intro k hk
          cases hit : sh.items with
          | none => simp [shard.find, hit]
          | some items =>
            simp only [shard.find, hit, Option.map_some']
            exact lookup_replace_ne items key k _ hk
      | none =>
        rw [hf] at h
        cases hit : sh.items with
        | none => rw [hit] at h; cases h
        | some items =>
          rw [hit] at h
          simp only [Except.ok.injEq] at h
          subst h
          refine ⟨_, rfl, hs, writesSlot_putShard c i sh _ hs, ?_, ?_⟩
          · simp only [shard.find]
            exact AList.lookup_insert items
          · intro k hk
            simp only [shard.find, hit]
            exact AList.lookup_insert_ne hk

/-- What a successful `evictExpiredItems` did. -/
theorem evictExpiredItems_spec {T : Type} (c c1 : InMemoryCache T) (i now : Int)
    (h : c.evictExpiredItems i now = .ok c1) :
    ∃ sh sh1, c.shardAt i = .ok sh ∧ WritesSlot c c1 i sh1 ∧
      ∀ k, sh1.find k =
        (sh.find k).filter (fun it => decide (timeSub now it.createdAt ≤ it.ttl)) := by
  unfold InMemoryCache.evictExpiredItems at h
  cases hs : c.shardAt i with
  | error e => simp only [bind, Except.bind] at h; rw [hs] at h; cases h
  | ok sh =>
    simp only [bind, Except.bind] at h
    rw [hs] at h
    simp only at h
    cases hit : sh.items with
    | none =>
      rw [hit] at h
      simp only [Except.ok.injEq] at h
      subst h
      refine ⟨sh, sh, rfl, writesSlot_refl c i sh hs, ?_⟩
      intro k
      simp [shard.find, hit]
    | some items =>
      rw [hit] at h
      simp only [Except.ok.injEq] at h
      subst h
      refine ⟨sh, _, rfl, writesSlot_putShard c i sh _ hs, ?_⟩
      intro k
      simp only [shard.find, hit]
      exact lookup_evictLoop_entries now k items

/-- A sweep of a slot that holds a shard does not fail. -/
theorem evictExpiredItems_ok {T : Type} (c : InMemoryCache T) (i now : Int) (sh : shard T)
    (h : c.shardAt i = .ok sh) : ∃ c1, c.evictExpiredItems i now = .ok c1 := by
  unfold InMemoryCache.evictExpiredItems
  simp only [bind, Except.bind]
  rw [h]
  simp only
  cases sh.items with
  | none => exact ⟨_, rfl⟩
  | some items => exact ⟨_, rfl⟩

/-! ## What a lookup sees after each operation -/

theorem find_eq {T : Type} (c : InMemoryCache T) (k : Key) (i : Int) (sh : shard T)
    (hi : c.shardIndex k = .ok i) (hs : c.shardAt i = .ok sh) :
    c.find k = .ok (sh.find k) := by
  unfold InMemoryCache.find
  simp only [bind, Except.bind]
  rw [hi]
  simp only
  rw [hs]

theorem find_writesSlot_own {T : Type} (c c1 : InMemoryCache T) (i : Int) (sh1 : shard T)
    (k : Key) (hw : WritesSlot c c1 i sh1) (hi : c.shardIndex k = .ok i) :
    c1.find k = .ok (sh1.find k) := by
  apply find_eq c1 k i sh1
  · rw [shardIndex_congr c c1 hw.numShards_eq, hi]
  · rw [hw.shardAt_eq, if_pos rfl]

theorem find_writesSlot_other {T : Type} (c c1 : InMemoryCache T) (i : Int) (sh1 : shard T)
    (k : Key) (hw : WritesSlot c c1 i sh1) (hi : c.shardIndex k ≠ .ok i) :
    c1.find k = c.find k := by
  unfold InMemoryCache.find
  simp only [bind, Except.bind]
  rw [shardIndex_congr c c1 hw.numShards_eq]
  cases hj : c.shardIndex k with
  | error e => rfl
  | ok j =>
    simp only
    have hne : j ≠ i := by
      intro h
      rw [hj, h] at hi
      exact hi rfl
    rw [hw.shardAt_eq, if_neg hne]

theorem Get_eq_find {T : Type} [Inhabited T] (c : InMemoryCache T) (k : Key) :
    c.Get k = (c.find k).map (fun o =>
      match o with
      | none => (default, false)
      | some item => (item.value, true)) := by
  unfold InMemoryCache.Get InMemoryCache.find
  simp only [bind, Except.bind]
  cases c.shardIndex k with
  | error e => rfl
  | ok i =>
    simp only
    cases c.shardAt i with
    | error e => rfl
    | ok sh =>
      simp only [Except.map]
      cases sh.find k <;> rfl

theorem Get_of_find_some {T : Type} [Inhabited T] (c : InMemoryCache T) (k : Key)
    (item : cacheItem T) (h : c.find k = .ok (some item)) : c.Get k = .ok (item.value, true) := by
  rw [Get_eq_find, h]
  rfl

theorem Get_of_find_none {T : Type} [Inhabited T] (c : InMemoryCache T) (k : Key)
    (h : c.find k = .ok none) : c.Get k = .ok (default, false) := by
  rw [Get_eq_find, h]
  rfl

theorem find_Set_self {T : Type} (c c1 : InMemoryCache T) (key : Key) (value : T)
    (ttl now : Int) (h : c.Set key value ttl now = .ok c1) :
    c1.find key = .ok (some ⟨value, now, ttl⟩) := by
  obtain ⟨i, sh, sh1, hi, _, hw, hself, _⟩ := Set_spec c c1 key value ttl now h
  rw [find_writesSlot_own c c1 i sh1 key hw hi, hself]

theorem find_Set_ne {T : Type} (c c1 : InMemoryCache T) (key k : Key) (value : T)
    (ttl now : Int) (h : c.Set key value ttl now = .ok c1) (hk : k ≠ key) :
    c1.find k = c.find k := by
  obtain ⟨i, sh, sh1, hi, hs, hw, _, hother⟩ := Set_spec c c1 key value ttl now h
  by_cases hki : c.shardIndex k = .ok i
  · rw [find_writesSlot_own c c1 i sh1 k hw hki, find_eq c k i sh hki hs, hother k hk]
  · exact find_writesSlot_other c c1 i sh1 k hw hki

theorem find_evict_own {T : Type} (c c1 : InMemoryCache T) (i now : Int) (k : Key)
    (h : c.evictExpiredItems i now = .ok c1) (hi : c.shardIndex k = .ok i) :
    ∃ o, c.find k = .ok o ∧
      c1.find k = .ok (o.filter (fun it => decide (timeSub now it.createdAt ≤ it.ttl))) := by
  obtain ⟨sh, sh1, hs, hw, hf⟩ := evictExpiredItems_spec c c1 i now h
  exact ⟨sh.find k, find_eq c k i sh hi hs, by
    rw [find_writesSlot_own c c1 i sh1 k hw hi, hf]⟩

theorem find_evict_other {T : Type} (c c1 : InMemoryCache T) (i now : Int) (k : Key)
    (h : c.evictExpiredItems i now = .ok c1) (hi : c.shardIndex k ≠ .ok i) :
    c1.find k = c.find k := by
  obtain ⟨sh, sh1, _, hw, _⟩ := evictExpiredItems_spec c c1 i now h
  exact find_writesSlot_other c c1 i sh1 k hw hi

theorem apply_numShards {T : Type} [Inhabited T] (c c1 : InMemoryCache T) (op : Op T)
    (h : c.apply op = .ok c1) : c1.numShards = c.numShards := by
  cases op with
  | set key value ttl now =>
    obtain ⟨_, _, _, _, _, hw, _, _⟩ := Set_spec c c1 key value ttl now h
    exact hw.numShards_eq
  | get key =>
    simp only [InMemoryCache.apply] at h
    cases hg : c.Get key with
    | error e => rw [hg] at h; cases h
    | ok r => rw [hg] at h; cases h; rfl
  | evict i now =>
    obtain ⟨_, _, _, hw, _⟩ := evictExpiredItems_spec c c1 i now h
    exact hw.numShards_eq
  | stop => cases h; rfl

/-- What one operation other than a `Set` of `k` does to the item under `k`:
nothing, unless it is a sweep of the shard of `k`, which filters it. -/
theorem apply_find {T : Type} [Inhabited T] (c c1 : InMemoryCache T) (op : Op T) (k : Key)
    (h : c.apply op = .ok c1) (hk : op.setsKey k = false) :
    c1.find k = c.find k ∨
      ∃ i now o, op = .evict i now ∧ c.shardIndex k = .ok i ∧ c.find k = .ok o ∧
        c1.find k = .ok (o.filter (fun it => decide (timeSub now it.createdAt ≤ it.ttl))) := by
  cases op with
  | set key value ttl now =>
    have hne : k ≠ key := by
      intro he
      simp [Op.setsKey, he] at hk
    exact Or.inl (find_Set_ne c c1 key k value ttl now h hne)
  | get key =>
    simp only [InMemoryCache.apply] at h
    cases hg : c.Get key with
    | error e => rw [hg] at h; cases h
    | ok r => rw [hg] at h; cases h; exact Or.inl rfl
  | evict i now =>
    by_cases hi : c.shardIndex k = .ok i
    · obtain ⟨o, h1, h2⟩ := find_evict_own c c1 i now k h hi
      exact Or.inr ⟨i, now, o, rfl, hi, h1, h2⟩
    · exact Or.inl (find_evict_other c c1 i now k h hi)
  | stop => cases h; exact Or.inl rfl

/-- An invariant of every operation of a sequence holds after the sequence. -/
theorem run_induction {T : Type} [Inhabited T] (P : InMemoryCache T → Prop) :
    ∀ (ops : List (Op T)) (c c1 : InMemoryCache T),
      (∀ op ∈ ops, ∀ a b, P a → a.apply op = .ok b → P b) →
      P c → c.run ops = .ok c1 → P c1 := by
  intro ops
  induction ops with
  | nil =>
    intro c c1 _ hP h
    cases h
    exact hP
  | cons op ops ih =>
    intro c c1 hstep hP h
    simp only [InMemoryCache.run] at h
    cases ha : c.apply op with
    | error e => rw [ha] at h; cases h
    | ok c2 =>
      rw [ha] at h
      exact ih c2 c1 (fun o ho => hstep o (List.mem_cons_of_mem _ ho))
        (hstep op (List.mem_cons_self _ _) c c2 hP ha) h

theorem run_numShards {T : Type} [Inhabited T] (ops : List (Op T)) (c c1 : InMemoryCache T)
    (h : c.run ops = .ok c1) : c1.numShards = c.numShards :=
  run_induction (fun a => a.numShards = c.numShards) ops c c1
    (fun op _ a b ha hab => (apply_numShards a b op hab).trans ha) rfl h

/-- Without a `Set` of `k`, the item under `k` can only stay or go. -/
theorem run_find_same_or_none {T : Type} [Inhabited T] (ops : List (Op T))
    (c c1 : InMemoryCache T) (k : Key) (o : Option (cacheItem T))
    (hops : ∀ op ∈ ops, op.setsKey k = false) (hfind : c.find k = .ok o)
    (h : c.run ops = .ok c1) : c1.find k = .ok o ∨ c1.find k = .ok none := by
  refine run_induction (fun a => a.find k = .ok o ∨ a.find k = .ok none) ops c c1 ?_
    (Or.inl hfind) h
  intro op hop a b ha hab
  rcases apply_find a b op k hab (hops op hop) with heq | ⟨i, now, o1, _, _, h1, h2⟩
  · rw [heq]
    exact ha
  · rcases ha with ha | ha
    · rw [ha] at h1
      cases h1
      rw [h2]
      cases o with
      | none => exact Or.inr rfl
      | some it =>
        by_cases hle : timeSub now it.createdAt ≤ it.ttl
        · exact Or.inl (by simp [Option.filter, hle])
        · exact Or.inr (by simp [Option.filter, hle])
    · rw [ha] at h1
      cases h1
      rw [h2]
      exact Or.inr rfl

/-- Without a `Set` of `k` and without a sweep of the shard of `k` at an
instant at which `item` counts as expired, `item` stays under `k`. -/
theorem run_find_kept {T : Type} [Inhabited T] (ops : List (Op T))
    (c c1 : InMemoryCache T) (k : Key) (i : Int) (item : cacheItem T)
    (hi : c.shardIndex k = .ok i)
    (hops : ∀ op ∈ ops, op.setsKey k = false ∧
      op.sweepsExpired i item.createdAt item.ttl = false)
    (hfind : c.find k = .ok (some item))
    (h : c.run ops = .ok c1) : c1.find k = .ok (some item) := by
  have key := run_induction
    (fun a => a.numShards = c.numShards ∧ a.find k = .ok (some item)) ops c c1 ?_
    ⟨rfl, hfind⟩ h
  · exact key.2
  intro op hop a b ⟨han, haf⟩ hab
  refine ⟨(apply_numShards a b op hab).trans han, ?_⟩
  rcases apply_find a b op k hab (hops op hop).1 with heq | ⟨j, now, o1, hopj, hj, h1, h2⟩
  · rw [heq]
    exact haf
  · rw [haf] at h1
    cases h1
    rw [h2]
    rw [shardIndex_congr c a han, hi] at hj
    cases hj
    have hsw := (hops op hop).2
    rw [hopj] at hsw
    simp only [Op.sweepsExpired, decide_True, Bool.true_and, decide_eq_false_iff_not] at hsw
    have hle : timeSub now item.createdAt ≤ item.ttl := by omega
    simp [Option.filter, hle]

/-! ## Expiry -/

/-- C2. After `Set(k, v, ttl)` at `t0` and no later `Set` of `k`, once the
shard that owns `k` is swept at an instant `now` with `now.Sub(t0) > ttl`,
`Get(k)` returns the zero value and `found = false`, whatever other
operations ran before and after that sweep. -/
theorem Get_not_found_after_sweep_past_ttl {T : Type} [Inhabited T]
    (c c1 c2 c3 c4 : InMemoryCache T) (k : Key) (v : T) (ttl t0 now i : Int)
    (ops1 ops2 : List (Op T))
    (hset : c.Set k v ttl t0 = .ok c1)
    (hops1 : ∀ op ∈ ops1, op.setsKey k = false)
    (hrun1 : c1.run ops1 = .ok c2)
    (hidx : c.shardIndex k = .ok i)
    (hexp : timeSub now t0 > ttl)
    (hsweep : c2.evictExpiredItems i now = .ok c3)
    (hops2 : ∀ op ∈ ops2, op.setsKey k = false)
    (hrun2 : c3.run ops2 = .ok c4) :
    c4.Get k = .ok (default, false) := by
  have hn1 : c1.numShards = c.numShards := apply_numShards c c1 (.set k v ttl t0) hset
  have hn2 : c2.numShards = c.numShards := (run_numShards ops1 c1 c2 hrun1).trans hn1
  have hidx2 : c2.shardIndex k = .ok i := by rw [shardIndex_congr c c2 hn2, hidx]
  have h3 : c3.find k = .ok none := by
    obtain ⟨o, ho, ho3⟩ := find_evict_own c2 c3 i now k hsweep hidx2
    rw [ho3]
    rcases run_find_same_or_none ops1 c1 c2 k _ hops1 (find_Set_self c c1 k v ttl t0 hset) hrun1
      with h | h
    · rw [h] at ho
      cases ho
      have hle : ¬ timeSub now t0 ≤ ttl := by omega
      simp [Option.filter, hle]
    · rw [h] at ho
      cases ho
      rfl
  apply Get_of_find_none
  rcases run_find_same_or_none ops2 c3 c4 k none hops2 h3 hrun2 with h | h <;> exact h

/-- C3. After `Set(k, v1, ttl1)` at `t0`, any operations, and `Set(k, v2,
ttl2)` at `t1 ≥ t0`, `Get(k)` returns `(v2, true)` as long as every later
sweep of the shard of `k` runs at an instant `now` with
`now.Sub(t1) ≤ ttl2` and `k` is not set again; how `now` compares with
`t0` and `ttl1` plays no part. -/
theorem overwrite_resets_expiry {T : Type} [Inhabited T]
    (c c1 c2 c3 c4 : InMemoryCache T) (k : Key) (v1 v2 : T) (ttl1 ttl2 t0 t1 i : Int)
    (ops1 ops2 : List (Op T))
    (hset1 : c.Set k v1 ttl1 t0 = .ok c1)
    (hrun1 : c1.run ops1 = .ok c2)
    (_ht : t0 ≤ t1)
    (hset2 : c2.Set k v2 ttl2 t1 = .ok c3)
    (hidx : c.shardIndex k = .ok i)
    (hops2 : ∀ op ∈ ops2, op.setsKey k = false ∧ op.sweepsExpired i t1 ttl2 = false)
    (hrun2 : c3.run ops2 = .ok c4) :
    c4.Get k = .ok (v2, true) := by
  have hn1 : c1.numShards = c.numShards := apply_numShards c c1 (.set k v1 ttl1 t0) hset1
  have hn2 : c2.numShards = c.numShards := (run_numShards ops1 c1 c2 hrun1).trans hn1
  have hn3 : c3.numShards = c.numShards :=
    (apply_numShards c2 c3 (.set k v2 ttl2 t1) hset2).trans hn2
  have hidx3 : c3.shardIndex k = .ok i := by rw [shardIndex_congr c c3 hn3, hidx]
  have h4 := run_find_kept ops2 c3 c4 k i ⟨v2, t1, ttl2⟩ hidx3 hops2
    (find_Set_self c2 c3 k v2 ttl2 t1 hset2) hrun2
  exact Get_of_find_some c4 k _ h4

/-- C4. A sweep of slot `i` that holds a shard succeeds, and afterwards the
shard holds a key iff it held it before with an item whose age
`now.Sub(createdAt)` is at most its `ttl`; an item that is still there is
the item that was there, with its `value`, `createdAt` and `ttl`. -/
theorem evictExpiredItems_removes_exactly_expired {T : Type} (c : InMemoryCache T)
    (i now : Int) (sh : shard T) (h : c.shardAt i = .ok sh) :
    ∃ c1 sh1, c.evictExpiredItems i now = .ok c1 ∧ c1.shardAt i = .ok sh1 ∧
      (∀ k, (sh1.find k).isSome ↔
        ∃ item, sh.find k = some item ∧ timeSub now item.createdAt ≤ item.ttl) ∧
      (∀ k item, sh1.find k = some item → sh.find k = some item) := by
  obtain ⟨c1, h1⟩ := evictExpiredItems_ok c i now sh h
  obtain ⟨sh0, sh1, hs0, hw, hf⟩ := evictExpiredItems_spec c c1 i now h1
  rw [h] at hs0
  cases hs0
  refine ⟨c1, sh1, h1, by rw [hw.shardAt_eq, if_pos rfl], ?_, ?_⟩
  · intro k
    rw [hf k]
    cases sh.find k with
    | none => simp [Option.filter]
    | some it =>
      by_cases hle : timeSub now it.createdAt ≤ it.ttl
      · simp [Option.filter, hle]
      · simp [Option.filter, hle]
  · intro k item hk
    rw [hf k] at hk
    cases hsk : sh.find k with
    | none => rw [hsk] at hk; simp [Option.filter] at hk
    | some it =>
      rw [hsk] at hk
      by_cases hle : timeSub now it.createdAt ≤ it.ttl
      · simp only [Option.filter, hle, decide_True, if_true] at hk
        exact hk
      · simp [Option.filter, hle] at hk

/-- C5. After `Set(k, v, ttl)` at `t0`, as long as the shard of `k` is not
swept and `k` is not set again, `Get(k)` returns `(v, true)` after any
operations at any instants, whatever `ttl` is (zero and negative
included): `Get` reads no clock. -/
theorem Get_does_not_check_expiry {T : Type} [Inhabited T]
    (c c1 c2 : InMemoryCache T) (k : Key) (v : T) (ttl t0 i : Int) (ops : List (Op T))
    (hset : c.Set k v ttl t0 = .ok c1)
    (hidx : c.shardIndex k = .ok i)
    (hops : ∀ op ∈ ops, op.setsKey k = false ∧ op.sweeps i = false)
    (hrun : c1.run ops = .ok c2) :
    c2.Get k = .ok (v, true) := by
  have hn1 : c1.numShards = c.numShards := apply_numShards c c1 (.set k v ttl t0) hset
  have hidx1 : c1.shardIndex k = .ok i := by rw [shardIndex_congr c c1 hn1, hidx]
  have hops2 : ∀ op ∈ ops, op.setsKey k = false ∧ op.sweepsExpired i t0 ttl = false := by
    intro op hop
    refine ⟨(hops op hop).1, ?_⟩
    have hsw := (hops op hop).2
    cases op with
    | evict j now =>
      simp only [Op.sweeps, decide_eq_false_iff_not] at hsw
      simp [Op.sweepsExpired, hsw]
    | set _ _ _ _ => rfl
    | get _ => rfl
    | stop => rfl
  have h2 := run_find_kept ops c1 c2 k i ⟨v, t0, ttl⟩ hidx1 hops2
    (find_Set_self c c1 k v ttl t0 hset) hrun
  exact Get_of_find_some c2 k _ h2

/-! ## Construction -/

theorem initShards_length {T : Type} (n : Int) :
    ∀ (fuel i : Nat) (l : List (Option (shard T))),
      (initShards n fuel i l).length = l.length := by
  intro fuel
  induction fuel with
  | zero => intro i l; rfl
  | succ fuel ih =>
    intro i l
    simp only [initShards]
    split
    · rw [ih]
      simp
    · rfl

theorem initShards_getElem? {T : Type} (n : Int) :
    ∀ (fuel i : Nat) (l : List (Option (shard T))) (j : Nat),
      (initShards n fuel i l)[j]? =
        if i ≤ j ∧ j < i + fuel ∧ (j : Int) < n ∧ j < l.length
        then some (some { items := some ∅ }) else l[j]? := by
  intro fuel
  induction fuel with
  | zero =>
    intro i l j
    simp only [initShards]
    rw [if_neg (by omega)]
  | succ fuel ih =>
    intro i l j
    simp only [initShards]
    by_cases hin : (i : Int) < n
    · rw [if_pos hin, ih, List.length_set, List.getElem?_set]
      by_cases hij : i = j
      · subst hij
        by_cases hl : i < l.length
        · rw [if_neg (by omega), if_pos rfl, if_pos hl, if_pos (by omega)]
        · rw [if_neg (by omega), if_pos rfl, if_neg hl, if_neg (by omega)]
          exact (List.getElem?_eq_none (by omega)).symm
      · rw [if_neg hij]
        by_cases hc : i + 1 ≤ j ∧ j < i + 1 + fuel ∧ (j : Int) < n ∧ j < l.length
        · rw [if_pos hc, if_pos (by omega)]
        · rw [if_neg hc, if_neg (by omega)]
    · rw [if_neg hin, if_neg (by omega)]

/-- A call of `NewInMemoryCache` with a shard count that is not negative
returns a cache whose slots all point to a shard with an empty map. -/
theorem NewInMemoryCache_eq {T : Type} (n e : Int) (h : 0 ≤ n) :
    NewInMemoryCache (T := T) n e =
      .ok { shards := List.replicate n.toNat (some { items := some ∅ })
            numShards := n
            evictTime := e
            cancelled := false } := by
  unfold NewInMemoryCache
  rw [if_neg (by omega)]
  congr 2
  apply List.ext_getElem?
  intro j
  rw [initShards_getElem?, List.length_replicate]
  by_cases hj : j < n.toNat
  · rw [if_pos (by omega), List.getElem?_replicate, if_pos hj]
  · rw [if_neg (by omega), List.getElem?_replicate, if_neg hj,
      List.getElem?_replicate, if_neg hj]

theorem NewInMemoryCache_ready {T : Type} (n e : Int) (c : InMemoryCache T) (hn : 1 ≤ n)
    (h : NewInMemoryCache n e = .ok c) : c.Ready := by
  rw [NewInMemoryCache_eq n e (by omega)] at h
  cases h
  refine ⟨hn, ?_, ?_⟩
  · simp only [List.length_replicate]
    omega
  · intro s hs
    exact ⟨∅, List.eq_of_mem_replicate hs⟩

/-- In a ready cache whose shard count does not vanish in `uint32`, every
key has a shard: `shardIndex` returns an index of the slice and the slot
holds a shard with a non-nil map. -/
theorem Ready.shard_of_key {T : Type} (c : InMemoryCache T) (hr : c.Ready)
    (hd : uint32 c.numShards ≠ 0) (key : Key) :
    ∃ (i : Int) (items : Items T), c.shardIndex key = .ok i ∧ 0 ≤ i ∧ i < c.numShards ∧
      c.shardAt i = .ok { items := some items } := by
  have hle := uint32_le c.numShards (by have := hr.numShards_pos; omega)
  have hlt : fnv32 key % uint32 c.numShards < uint32 c.numShards :=
    Nat.mod_lt _ (Nat.pos_of_ne_zero hd)
  have hlen := hr.length_eq
  have hget : (fnv32 key % uint32 c.numShards) < c.shards.length := by omega
  obtain ⟨items, hitems⟩ := hr.slots _ (List.getElem_mem hget)
  refine ⟨Int.ofNat (fnv32 key % uint32 c.numShards), items, ?_, ?_, ?_, ?_⟩
  · unfold InMemoryCache.shardIndex
    rw [if_neg hd]
  · exact Int.ofNat_nonneg _
  · have h3 : ((fnv32 key % uint32 c.numShards : Nat) : Int) < (uint32 c.numShards : Int) :=
      Int.ofNat_lt.mpr hlt
    exact lt_of_lt_of_le h3 hle
  · have ht : (Int.ofNat (fnv32 key % uint32 c.numShards)).toNat =
        fnv32 key % uint32 c.numShards := rfl
    have h0 : ¬ Int.ofNat (fnv32 key % uint32 c.numShards) < 0 :=
      not_lt.mpr (Int.ofNat_nonneg _)
    unfold InMemoryCache.shardAt
    rw [if_neg h0, ht, List.get?_eq_getElem?, List.getElem?_eq_getElem hget, hitems]

/-- In a ready cache whose shard count does not vanish in `uint32`, `Set`
succeeds and `Get` of the same key right after returns the value set. -/
theorem Ready.Set_then_Get {T : Type} [Inhabited T] (c : InMemoryCache T) (hr : c.Ready)
    (hd : uint32 c.numShards ≠ 0) (key : Key) (value : T) (ttl now : Int) :
    ∃ c1, c.Set key value ttl now = .ok c1 ∧ c1.Get key = .ok (value, true) := by
  obtain ⟨i, items, hi, _, _, hs⟩ := Ready.shard_of_key c hr hd key
  have hex : ∃ c1, c.Set key value ttl now = .ok c1 := by
    unfold InMemoryCache.Set
    simp only [bind, Except.bind]
    rw [hi]
    simp only
    rw [hs]
    simp only
    cases shard.find { items := some items } key with
    | none => exact ⟨_, rfl⟩
    | some item => exact ⟨_, rfl⟩
  obtain ⟨c1, h1⟩ := hex
  exact ⟨c1, h1, Get_of_find_some c1 key _ (find_Set_self c c1 key value ttl now h1)⟩

/-- On a fresh cache whose shard count is positive and does not vanish in
`uint32`, `Get` finds nothing and does not fail. -/
theorem Get_fresh {T : Type} [Inhabited T] (n e : Int) (c : InMemoryCache T) (hn : 1 ≤ n)
    (hd : uint32 n ≠ 0) (h : NewInMemoryCache n e = .ok c) (key : Key) :
    c.Get key = .ok (default, false) := by
  have hr := NewInMemoryCache_ready n e c hn h
  rw [NewInMemoryCache_eq n e (by omega)] at h
  cases h
  obtain ⟨i, items, hi, h0, hlt, hs⟩ := Ready.shard_of_key _ hr hd key
  apply Get_of_find_none
  rw [find_eq _ key i _ hi hs]
  have hempty : InMemoryCache.shardAt (T := T)
      { shards := List.replicate n.toNat (some { items := some ∅ })
        numShards := n
        evictTime := e
        cancelled := false } i = .ok { items := some ∅ } := by
    have hi2 : i.toNat < n.toNat := by
      have : i < n := hlt
      omega
    unfold InMemoryCache.shardAt
    rw [if_neg (by omega), List.get?_eq_getElem?, List.getElem?_replicate, if_pos hi2]
  rw [hempty] at hs
  simp only [Except.ok.injEq, shard.mk.injEq, Option.some.injEq] at hs
  rw [← hs]
  rfl

/-! ## The goroutines -/

/-- What a step does to the cache: the operation of the step, or nothing. -/
theorem step_cache {T : Type} [Inhabited T] (s s1 : System T) (a : Action T)
    (h : s.step a = some (.ok s1)) :
    match a.op with
    | some op => s.cache.apply op = .ok s1.cache
    | none => s1.cache = s.cache := by
  cases a with
  | callSet key value ttl now =>
    simp only [System.step, Option.some.injEq] at h
    simp only [Action.op, InMemoryCache.apply]
    cases hc : s.cache.Set key value ttl now with
    | error e => rw [hc] at h; cases h
    | ok c => rw [hc] at h; cases h; rfl
  | callGet key =>
    simp only [System.step, Option.some.injEq] at h
    simp only [Action.op, InMemoryCache.apply]
    cases hc : s.cache.Get key with
    | error e => rw [hc] at h; cases h
    | ok c => rw [hc] at h; cases h; rfl
  | callStop =>
    simp only [System.step, Option.some.injEq, Except.ok.injEq] at h
    subst h
    rfl
  | newTicker i =>
    simp only [System.step] at h
    simp only [Action.op]
    split at h
    · split at h
      · split at h
        · cases h
        · cases h; rfl
      · cases h
    · cases h
  | tick i =>
    simp only [System.step] at h
    simp only [Action.op]
    split at h
    · split at h
      · cases h; rfl
      · cases h
    · cases h
  | selectTicker i =>
    simp only [System.step] at h
    simp only [Action.op]
    split at h
    · split at h
      · cases h; rfl
      · cases h
    · cases h
  | selectDone i =>
    simp only [System.step] at h
    simp only [Action.op]
    split at h
    · split at h
      · cases h; rfl
      · cases h
    · cases h
  | evict i now =>
    simp only [System.step] at h
    simp only [Action.op, InMemoryCache.apply]
    split at h
    · split at h
      · simp only [Option.some.injEq] at h
        cases hc : s.cache.evictExpiredItems (i : Int) now with
        | error e => rw [hc] at h; cases h
        | ok c => rw [hc] at h; cases h; rfl
      · cases h
    · cases h

/-- A worker that has exited takes no further step, and stays exited
whatever the others do. -/
theorem step_hasExited {T : Type} [Inhabited T] (s s1 : System T) (a : Action T) (i : Nat)
    (hex : s.hasExited i) (h : s.step a = some (.ok s1)) :
    s1.hasExited i ∧ a.sweeps i = false := by
  unfold System.hasExited at hex ⊢
  have hset : ∀ (j : Nat) (w w1 : Worker), s.workers.get? j = some w → w.pc ≠ .exited →
      ((s.workers.set j w1).get? i).map Worker.pc = some .exited := by
    intro j w w1 hj hpc
    have hji : j ≠ i := by
      intro hji
      subst hji
      rw [hj] at hex
      simp only [Option.map_some', Option.some.injEq] at hex
      exact hpc hex
    rw [List.get?_eq_getElem?, List.getElem?_set, if_neg hji, ← List.get?_eq_getElem?]
    exact hex
  cases a with
  | callSet key value ttl now =>
    simp only [System.step, Option.some.injEq] at h
    cases hc : s.cache.Set key value ttl now with
    | error e => rw [hc] at h; cases h
    | ok c => rw [hc] at h; cases h; exact ⟨hex, rfl⟩
  | callGet key =>
    simp only [System.step, Option.some.injEq] at h
    cases hc : s.cache.Get key with
    | error e => rw [hc] at h; cases h
    | ok c => rw [hc] at h; cases h; exact ⟨hex, rfl⟩
  | callStop =>
    simp only [System.step, Option.some.injEq, Except.ok.injEq] at h
    subst h
    exact ⟨hex, rfl⟩
  | newTicker j =>
    simp only [System.step] at h
    split at h
    · rename_i w hw
      split at h
      · rename_i hpc
        split at h
        · cases h
        · cases h
          exact ⟨hset j w _ hw (by rw [hpc]; decide), rfl⟩
      · cases h
    · cases h
  | tick j =>
    simp only [System.step] at h
    split at h
    · rename_i w hw
      split at h
      · rename_i hpc
        cases h
        refine ⟨hset j w _ hw ?_, rfl⟩
        rcases hpc with hpc | hpc <;> rw [hpc] <;> decide
      · cases h
    · cases h
  | selectTicker j =>
    simp only [System.step] at h
    split at h
    · rename_i w hw
      split at h
      · rename_i hpc
        cases h
        exact ⟨hset j w _ hw (by rw [hpc.1]; decide), rfl⟩
      · cases h
    · cases h
  | selectDone j =>
    simp only [System.step] at h
    split at h
    · rename_i w hw
      split at h
      · rename_i hpc
        cases h
        exact ⟨hset j w _ hw (by rw [hpc.1]; decide), rfl⟩
      · cases h
    · cases h
  | evict j now =>
    simp only [System.step] at h
    split at h
    · rename_i w hw
      split at h
      · rename_i hpc
        simp only [Option.some.injEq] at h
        cases hc : s.cache.evictExpiredItems (j : Int) now with
        | error e => rw [hc] at h; cases h
        | ok c =>
          rw [hc] at h
          cases h
          refine ⟨hset j w _ hw (by rw [hpc]; decide), ?_⟩
          simp only [Action.sweeps, decide_eq_false_iff_not]
          intro hji
          subst hji
          rw [hw] at hex
          simp only [Option.map_some', Option.some.injEq] at hex
          rw [hpc] at hex
          cases hex
      · cases h
    · cases h

/-- The cache after an execution is the cache after the operations of its
steps. -/
theorem exec_run {T : Type} [Inhabited T] :
    ∀ (acts : List (Action T)) (s s1 : System T), s.exec acts = some s1 →
      s.cache.run (acts.filterMap Action.op) = .ok s1.cache := by
  intro acts
  induction acts with
  | nil =>
    intro s s1 h
    cases h
    rfl
  | cons a acts ih =>
    intro s s1 h
    simp only [System.exec] at h
    cases hst : s.step a with
    | none => rw [hst] at h; cases h
    | some r =>
      cases r with
      | error e => rw [hst] at h; cases h
      | ok s2 =>
        rw [hst] at h
        have hc := step_cache s s2 a hst
        have hrest := ih s2 s1 h
        cases hop : a.op with
        | none =>
          rw [hop] at hc
          rw [List.filterMap_cons_none hop, ← hc]
          exact hrest
        | some op =>
          rw [hop] at hc
          rw [List.filterMap_cons_some hop]
          simp only [InMemoryCache.run]
          rw [hc]
          exact hrest

/-- After a worker has exited, no execution contains a sweep by it. -/
theorem exec_hasExited {T : Type} [Inhabited T] (i : Nat) :
    ∀ (acts : List (Action T)) (s s1 : System T), s.hasExited i → s.exec acts = some s1 →
      s1.hasExited i ∧ ∀ a ∈ acts, a.sweeps i = false := by
  intro acts
  induction acts with
  | nil =>
    intro s s1 hex h
    cases h
    exact ⟨hex, fun a ha => by cases ha⟩
  | cons a acts ih =>
    intro s s1 hex h
    simp only [System.exec] at h
    cases hst : s.step a with
    | none => rw [hst] at h; cases h
    | some r =>
      cases r with
      | error e => rw [hst] at h; cases h
      | ok s2 =>
        rw [hst] at h
        obtain ⟨hex2, hsw⟩ := step_hasExited s s2 a i hex hst
        obtain ⟨hex1, hrest⟩ := ih s2 s1 hex2 h
        refine ⟨hex1, ?_⟩
        intro b hb
        rcases List.mem_cons.mp hb with rfl | hb
        · exact hsw
        · exact hrest b hb

theorem apply_cancelled {T : Type} [Inhabited T] (c c1 : InMemoryCache T) (op : Op T)
    (hc : c.cancelled = true) (h : c.apply op = .ok c1) : c1.cancelled = true := by
  cases op with
  | set key value ttl now =>
    obtain ⟨_, _, _, _, _, hw, _, _⟩ := Set_spec c c1 key value ttl now h
    rw [hw.cancelled_eq, hc]
  | get key =>
    simp only [InMemoryCache.apply] at h
    cases hg : c.Get key with
    | error e => rw [hg] at h; cases h
    | ok r => rw [hg] at h; cases h; exact hc
  | evict i now =>
    obtain ⟨_, _, _, hw, _⟩ := evictExpiredItems_spec c c1 i now h
    rw [hw.cancelled_eq, hc]
  | stop => cases h; rfl

/-! ## The claims on `Set`, `Get`, the hash and the construction -/

/-- C1. With `numShards = 4294967296` the construction succeeds and every
`Set` on the cache it returns panics dividing by zero, so no `Get` follows:
`shardIndex` reduces the hash modulo `uint32(c.numShards)`, which is zero. -/
theorem Set_panics_with_2pow32_shards (T : Type) (evictTime : Int) (key : Key) (value : T)
    (ttl now : Int) :
    (NewInMemoryCache (T := T) 4294967296 evictTime).bind
      (fun c => c.Set key value ttl now) = .error .divideByZero :=
  rfl

/-- C6. With `numShards = 4294967296` the construction succeeds and every
`Get` on the fresh cache panics dividing by zero instead of returning the
zero value and `found = false`. -/
theorem Get_panics_with_2pow32_shards (T : Type) [Inhabited T] (evictTime : Int) (key : Key) :
    (NewInMemoryCache (T := T) 4294967296 evictTime).bind
      (fun c => c.Get key) = .error .divideByZero :=
  rfl

/-- C7. With `numShards = 4294967296` the method `shardIndex` panics
dividing by zero on every key. -/
theorem shardIndex_panics_with_2pow32_shards (T : Type) (evictTime : Int) (key : Key) :
    (NewInMemoryCache (T := T) 4294967296 evictTime).bind
      (fun c => c.shardIndex key) = .error .divideByZero :=
  rfl

/-- C8. With `numShards = 4294967297` the method `shardIndex` sends the
empty key to shard 0, while `fnv32` of the empty key, the offset basis
2166136261, is its own remainder modulo `numShards`. -/
theorem shardIndex_not_fnv32_mod_numShards :
    (NewInMemoryCache (T := Nat) 4294967297 1000000000).bind
        (fun c => c.shardIndex []) = .ok 0 ∧
      fnv32 [] = 2166136261 ∧ (fnv32 [] : Int) % 4294967297 = 2166136261 :=
  ⟨rfl, rfl, rfl⟩

/-- C9, as stated, fails: `NewInMemoryCache(0, time.Second)` does not fail;
it returns the cache with no shard. -/
theorem NewInMemoryCache_zero_succeeds :
    NewInMemoryCache (T := Nat) 0 1000000000 = .ok noShards :=
  rfl

/-- C9, amended. For every `evictTime`, `NewInMemoryCache(0, evictTime)`
returns, without failing, a cache with no shard (and spawns no goroutine),
on which every `Set` and every `Get` panics dividing by zero. -/
theorem NewInMemoryCache_zero_then_divideByZero (T : Type) [Inhabited T] (evictTime : Int) :
    NewInMemoryCache (T := T) 0 evictTime =
        .ok { shards := [], numShards := 0, evictTime := evictTime, cancelled := false } ∧
      NewSystem (T := T) 0 evictTime =
        .ok { cache := { shards := [], numShards := 0, evictTime := evictTime,
                         cancelled := false }
              workers := [] } ∧
      (∀ key value ttl now,
        (NewInMemoryCache (T := T) 0 evictTime).bind (fun c => c.Set key value ttl now) =
          .error .divideByZero) ∧
      (∀ key,
        (NewInMemoryCache (T := T) 0 evictTime).bind (fun c => c.Get key) =
          .error .divideByZero) :=
  ⟨rfl, rfl, fun _ _ _ _ => rfl, fun _ => rfl⟩

/-- Witness of C2: `"foo"` set with a ttl of two seconds at the instant 0,
the shard swept after one second and after three. -/
theorem Get_not_found_after_sweep_past_ttl_witness :
    cache4.Set foo 7 2000000000 0 = .ok cacheA ∧
      cacheB.evictExpiredItems 3 3000000000 = .ok cacheC ∧
      timeSub 3000000000 0 > 2000000000 ∧
      cacheD.Get foo = .ok (0, false) :=
  ⟨rfl, rfl, by decide,
    Get_not_found_after_sweep_past_ttl cache4 cacheA cacheB cacheC cacheD foo 7
      2000000000 0 3000000000 3 opsBefore opsAfter rfl (by decide) rfl rfl (by decide) rfl
      (by decide) rfl⟩

/-- Witness of C3: `"foo"` set at the instant 0 and again at 1.5s, both with
a ttl of two seconds, the shard swept at 3s. -/
theorem overwrite_resets_expiry_witness :
    cache4.Set foo 7 2000000000 0 = .ok cacheA ∧
      cacheB.Set foo 8 2000000000 1500000000 = .ok cacheOver ∧
      timeSub 3000000000 0 > 2000000000 ∧
      cacheOver1.Get foo = .ok (8, true) :=
  ⟨rfl, rfl, by decide,
    overwrite_resets_expiry cache4 cacheA cacheB cacheOver cacheOver1 foo 7 8
      2000000000 2000000000 0 1500000000 3 opsBefore opsOver rfl rfl (by decide) rfl rfl
      (by decide) rfl⟩

/-- Witness of C4: the sweep of shard 3 of `cacheB` at 3s. -/
theorem evictExpiredItems_removes_exactly_expired_witness :
    cacheB.shardAt 3 = .ok shardB ∧
      ∃ c1 sh1, cacheB.evictExpiredItems 3 3000000000 = .ok c1 ∧ c1.shardAt 3 = .ok sh1 ∧
        (∀ k, (sh1.find k).isSome ↔
          ∃ item, shardB.find k = some item ∧ timeSub 3000000000 item.createdAt ≤ item.ttl) ∧
        (∀ k item, sh1.find k = some item → shardB.find k = some item) :=
  ⟨rfl, evictExpiredItems_removes_exactly_expired cacheB 3 3000000000 shardB rfl⟩

/-- Witness of C5: `"foo"` set with a negative ttl and read long after. -/
theorem Get_does_not_check_expiry_witness :
    cache4.Set foo 7 (-5) 0 = .ok cacheNeg ∧ cacheNeg.run opsLate = .ok cacheNeg1 ∧
      cacheNeg1.Get foo = .ok (7, true) :=
  ⟨rfl, rfl,
    Get_does_not_check_expiry cache4 cacheNeg cacheNeg1 foo 7 (-5) 0 3 opsLate rfl rfl
      (by decide) rfl⟩

/-! ## The claims on `Stop` -/

/-- C10, as stated, fails: in the system of `NewInMemoryCache(1,
time.Second)`, `"foo"` set with a ttl of zero after `Stop()` has returned is
there right after the `Set` and gone after a sweep that follows. The worker
that sweeps either took its tick before `Stop()` and runs
`evictExpiredItems` after it, or finds at its `select`, after `Stop()`, a
tick pending next to the cancelled context and takes the tick. -/
theorem sweep_after_Stop_removes_entry :
    NewSystem 1 1000000000 = .ok system1 ∧
      (system1.exec [.newTicker 0, .tick 0, .selectTicker 0, .callStop,
          .callSet foo 7 0 1000000010]).map
        (fun s => s.cache.Get foo) = some (.ok (7, true)) ∧
      (system1.exec [.newTicker 0, .tick 0, .selectTicker 0, .callStop,
          .callSet foo 7 0 1000000010, .evict 0 1000000020]).map
        (fun s => s.cache.Get foo) = some (.ok (0, false)) ∧
      (system1.exec [.newTicker 0, .callStop, .callSet foo 7 0 1000000010,
          .tick 0, .selectTicker 0, .evict 0 1000000020]).map
        (fun s => s.cache.Get foo) = some (.ok (0, false)) :=
  ⟨rfl, rfl, rfl, rfl⟩

/-- C10, amended. Once `Stop()` has returned and the worker of shard `i` has
exited, in every execution the context stays cancelled, the worker stays
exited and never sweeps, and a key of shard `i` set after that is returned
by `Get` with its value for as long as it is not set again, whatever its
ttl. -/
theorem no_sweep_after_worker_exit {T : Type} [Inhabited T] (s s1 s2 : System T) (i : Nat)
    (k : Key) (v : T) (ttl now : Int) (acts : List (Action T))
    (hstop : s.cache.cancelled = true)
    (hex : s.hasExited i)
    (hidx : s.cache.shardIndex k = .ok (i : Int))
    (hset : s.step (.callSet k v ttl now) = some (.ok s1))
    (hacts : ∀ a ∈ acts, a.setsKey k = false)
    (hrun : s1.exec acts = some s2) :
    s2.cache.cancelled = true ∧ s2.hasExited i ∧ (∀ a ∈ acts, a.sweeps i = false) ∧
      s2.cache.Get k = .ok (v, true) := by
  have hset1 : s.cache.Set k v ttl now = .ok s1.cache := step_cache s s1 _ hset
  obtain ⟨hex1, _⟩ := step_hasExited s s1 _ i hex hset
  obtain ⟨hex2, hsw⟩ := exec_hasExited i acts s1 s2 hex1 hrun
  have hrun1 := exec_run acts s1 s2 hrun
  have hc1 : s1.cache.cancelled = true :=
    apply_cancelled s.cache s1.cache (.set k v ttl now) hstop hset1
  have hc2 : s2.cache.cancelled = true :=
    run_induction (fun a => a.cancelled = true) _ s1.cache s2.cache
      (fun op _ a b ha hab => apply_cancelled a b op ha hab) hc1 hrun1
  have hn1 : s1.cache.numShards = s.cache.numShards :=
    apply_numShards s.cache s1.cache (.set k v ttl now) hset1
  have hidx1 : s1.cache.shardIndex k = .ok (i : Int) := by
    rw [shardIndex_congr s.cache s1.cache hn1, hidx]
  have hops : ∀ op ∈ acts.filterMap Action.op,
      op.setsKey k = false ∧ op.sweepsExpired (i : Int) now ttl = false := by
    intro op hop
    obtain ⟨a, ha, hao⟩ := List.mem_filterMap.mp hop
    have h1 := hacts a ha
    have h2 := hsw a ha
    cases a with
    | callSet key value ttl1 now1 =>
      cases hao
      simp only [Action.setsKey] at h1
      exact ⟨h1, rfl⟩
    | callGet key => cases hao; exact ⟨rfl, rfl⟩
    | callStop => cases hao; exact ⟨rfl, rfl⟩
    | newTicker j => cases hao
    | tick j => cases hao
    | selectTicker j => cases hao
    | selectDone j => cases hao
    | evict j now1 =>
      cases hao
      simp only [Action.sweeps, decide_eq_false_iff_not] at h2
      refine ⟨rfl, ?_⟩
      have hne : ¬ ((j : Int) = (i : Int)) := fun h => h2 (Int.ofNat_inj.mp h)
      simp [Op.sweepsExpired, hne]
  have hfind := run_find_kept _ s1.cache s2.cache k (i : Int) ⟨v, now, ttl⟩ hidx1 hops
    (find_Set_self s.cache s1.cache k v ttl now hset1) hrun1
  exact ⟨hc2, hex2, hsw, Get_of_find_some s2.cache k _ hfind⟩

/-- Witness of C10, amended: `"foo"` set with a ttl of zero once the worker
of the only shard has exited. -/
theorem no_sweep_after_worker_exit_witness :
    system1.exec [.newTicker 0, .callStop, .selectDone 0] = some systemStopped ∧
      systemStopped.hasExited 0 ∧
      systemLate.cache.cancelled = true ∧ systemLate.hasExited 0 ∧
      (∀ a ∈ stepsAfter, a.sweeps 0 = false) ∧
      systemLate.cache.Get foo = .ok (7, true) :=
  ⟨rfl, rfl,
    no_sweep_after_worker_exit systemStopped systemSet systemLate 0 foo 7 0 10 stepsAfter
      rfl rfl rfl rfl (by decide) rfl⟩

/-! ## Frame properties -/

theorem shardAt_nonneg {T : Type} (c : InMemoryCache T) (i : Int) (sh : shard T)
    (h : c.shardAt i = .ok sh) : 0 ≤ i := by
  unfold InMemoryCache.shardAt at h
  by_cases hi : i < 0
  · rw [if_pos hi] at h
    cases h
  · omega

theorem putShard_get?_ne {T : Type} (c : InMemoryCache T) (i : Int) (sh : shard T) (j : Nat)
    (h0 : 0 ≤ i) (hj : (j : Int) ≠ i) :
    (c.putShard i sh).shards.get? j = c.shards.get? j := by
  have hne : i.toNat ≠ j := by omega
  simp only [InMemoryCache.putShard, List.get?_eq_getElem?]
  rw [List.getElem?_set, if_neg hne]

/-- A successful `Set` stores into the slot of the key and nowhere else. -/
theorem Set_eq_putShard {T : Type} (c c1 : InMemoryCache T) (key : Key) (value : T)
    (ttl now : Int) (h : c.Set key value ttl now = .ok c1) :
    ∃ i sh sh1, c.shardIndex key = .ok i ∧ c.shardAt i = .ok sh ∧ c1 = c.putShard i sh1 ∧
      (sh.items.isSome → sh1.items.isSome) := by
  unfold InMemoryCache.Set at h
  cases hi : c.shardIndex key with
  | error e => rw [hi] at h; cases h
  | ok i =>
    cases hs : c.shardAt i with
    | error e => rw [hi] at h; simp only [bind, Except.bind] at h; rw [hs] at h; cases h
    | ok sh =>
      rw [hi] at h
      simp only [bind, Except.bind] at h
      rw [hs] at h
      simp only at h
      cases hf : sh.find key with
      | some item =>
        rw [hf] at h
        simp only [Except.ok.injEq] at h
        exact ⟨i, sh, _, rfl, hs, h.symm, fun hsome => by simpa using hsome⟩
      | none =>
        rw [hf] at h
        cases hit : sh.items with
        | none => rw [hit] at h; cases h
        | some items =>
          rw [hit] at h
          simp only [Except.ok.injEq] at h
          exact ⟨i, sh, _, rfl, hs, h.symm, fun _ => rfl⟩

/-- A successful sweep stores into the swept slot and nowhere else, if it
stores at all. -/
theorem evictExpiredItems_eq_putShard {T : Type} (c c1 : InMemoryCache T) (i now : Int)
    (h : c.evictExpiredItems i now = .ok c1) :
    ∃ sh, c.shardAt i = .ok sh ∧
      (c1 = c ∨ ∃ sh1, c1 = c.putShard i sh1 ∧ sh1.items.isSome) := by
  unfold InMemoryCache.evictExpiredItems at h
  cases hs : c.shardAt i with
  | error e => simp only [bind, Except.bind] at h; rw [hs] at h; cases h
  | ok sh =>
    simp only [bind, Except.bind] at h
    rw [hs] at h
    simp only at h
    cases hit : sh.items with
    | none =>
      rw [hit] at h
      simp only [Except.ok.injEq] at h
      exact ⟨sh, rfl, Or.inl h.symm⟩
    | some items =>
      rw [hit] at h
      simp only [Except.ok.injEq] at h
      exact ⟨sh, rfl, Or.inr ⟨_, h.symm, rfl⟩⟩

theorem Get_Stop {T : Type} [Inhabited T] (c : InMemoryCache T) (key : Key) :
    c.Stop.Get key = c.Get key :=
  rfl

theorem Set_Stop {T : Type} (c : InMemoryCache T) (key : Key) (value : T) (ttl now : Int) :
    c.Stop.Set key value ttl now = (c.Set key value ttl now).map InMemoryCache.Stop := by
  unfold InMemoryCache.Set
  simp only [bind, Except.bind]
  have hi : c.Stop.shardIndex key = c.shardIndex key := rfl
  rw [hi]
  cases c.shardIndex key with
  | error e => rfl
  | ok i =>
    simp only
    have hs : c.Stop.shardAt i = c.shardAt i := rfl
    rw [hs]
    cases c.shardAt i with
    | error e => rfl
    | ok sh =>
      simp only
      cases sh.find key with
      | some item => rfl
      | none =>
        simp only
        cases sh.items with
        | none => rfl
        | some items => rfl

theorem Ready.Stop {T : Type} (c : InMemoryCache T) (hr : c.Ready) : c.Stop.Ready :=
  ⟨hr.numShards_pos, hr.length_eq, hr.slots⟩

/-- C11. `Stop()` writes the cancellation signal and nothing else: the
slice, the shards and their entries are as before, so every `Get` returns
what it returned before; a `Set` that runs on the cache runs on the stopped
cache with the same effect, and the `Get` of its key right after returns
`(v, true)`; on a ready cache whose shard count does not vanish in `uint32`
that `Set` does run. -/
theorem Stop_only_halts_eviction {T : Type} [Inhabited T] (c : InMemoryCache T) :
    (c.Stop.shards = c.shards ∧ c.Stop.numShards = c.numShards ∧
        c.Stop.evictTime = c.evictTime) ∧
      (∀ key, c.Stop.Get key = c.Get key) ∧
      (∀ key value ttl now c1, c.Set key value ttl now = .ok c1 →
        c.Stop.Set key value ttl now = .ok c1.Stop ∧ c1.Stop.Get key = .ok (value, true)) ∧
      (c.Ready → uint32 c.numShards ≠ 0 → ∀ key value ttl now,
        ∃ c1, c.Stop.Set key value ttl now = .ok c1 ∧ c1.Get key = .ok (value, true)) := by
  refine ⟨⟨rfl, rfl, rfl⟩, fun _ => rfl, ?_, ?_⟩
  · intro key value ttl now c1 hset
    refine ⟨by rw [Set_Stop, hset]; rfl, ?_⟩
    rw [Get_Stop]
    exact Get_of_find_some c1 key _ (find_Set_self c c1 key value ttl now hset)
  · intro hr hd key value ttl now
    exact Ready.Set_then_Get c.Stop (Ready.Stop c hr) hd key value ttl now

/-- Witness of C11: `Set("d", 9, 1s)` on the stopped `cacheA`. -/
theorem Stop_only_halts_eviction_witness :
    cacheA.Stop.Get foo = cacheA.Get foo ∧ cacheA.Get foo = .ok (7, true) ∧
      cacheA.Set keyD 9 1000000000 5 = .ok cacheAD ∧
      cacheA.Stop.Set keyD 9 1000000000 5 = .ok cacheAD.Stop ∧
      cacheAD.Stop.Get keyD = .ok (9, true) :=
  ⟨(Stop_only_halts_eviction cacheA).2.1 foo, rfl, rfl,
    (Stop_only_halts_eviction cacheA).2.2.1 keyD 9 1000000000 5 cacheAD rfl⟩

/-- C14. A `Set` that runs leaves every slot other than the slot of its key
as it was; a sweep that runs leaves every slot other than the swept one as
it was; a `Get` that runs leaves the cache as it was. -/
theorem operations_touch_one_shard {T : Type} [Inhabited T] (c : InMemoryCache T) :
    (∀ key value ttl now c1 i, c.Set key value ttl now = .ok c1 →
        c.shardIndex key = .ok i →
        c1.shards.length = c.shards.length ∧
          ∀ j : Nat, (j : Int) ≠ i → c1.shards.get? j = c.shards.get? j) ∧
      (∀ i now c1, c.evictExpiredItems i now = .ok c1 →
        c1.shards.length = c.shards.length ∧
          ∀ j : Nat, (j : Int) ≠ i → c1.shards.get? j = c.shards.get? j) ∧
      (∀ key c1, c.apply (.get key) = .ok c1 → c1 = c) := by
  refine ⟨?_, ?_, ?_⟩
  · intro key value ttl now c1 i hset hi
    obtain ⟨i1, sh, sh1, hi1, hs, hc1, _⟩ := Set_eq_putShard c c1 key value ttl now hset
    rw [hi] at hi1
    cases hi1
    subst hc1
    refine ⟨by simp [InMemoryCache.putShard], ?_⟩
    intro j hj
    exact putShard_get?_ne c i sh1 j (shardAt_nonneg c i sh hs) hj
  · intro i now c1 hev
    obtain ⟨sh, hs, hc1 | ⟨sh1, hc1, _⟩⟩ := evictExpiredItems_eq_putShard c c1 i now hev
    · subst hc1
      exact ⟨rfl, fun _ _ => rfl⟩
    · subst hc1
      refine ⟨by simp [InMemoryCache.putShard], ?_⟩
      intro j hj
      exact putShard_get?_ne c i sh1 j (shardAt_nonneg c i sh hs) hj
  · intro key c1 h
    simp only [InMemoryCache.apply] at h
    cases hg : c.Get key with
    | error e => rw [hg] at h; cases h
    | ok r => rw [hg] at h; cases h; rfl

/-- Witness of C14: `Set("d", ..)` on `cacheA`, the sweep of shard 3 of
`cacheB`, and `Get("foo")` on `cacheA`. -/
theorem operations_touch_one_shard_witness :
    (cacheAD.shards.length = cacheA.shards.length ∧
        ∀ j : Nat, (j : Int) ≠ 3 → cacheAD.shards.get? j = cacheA.shards.get? j) ∧
      (cacheC.shards.length = cacheB.shards.length ∧
        ∀ j : Nat, (j : Int) ≠ 3 → cacheC.shards.get? j = cacheB.shards.get? j) ∧
      cacheA.apply (.get foo) = .ok cacheA :=
  ⟨(operations_touch_one_shard cacheA).1 keyD 9 1000000000 5 cacheAD 3 rfl rfl,
    (operations_touch_one_shard cacheB).2.1 3 3000000000 cacheC rfl, rfl⟩

/-- C18. A `Set` of `k` that runs leaves the result of `Get` on every other
key as it was, in the shard of `k` and in every other shard. -/
theorem Set_affects_only_its_key {T : Type} [Inhabited T] (c c1 : InMemoryCache T)
    (k k1 : Key) (v : T) (ttl now : Int)
    (hset : c.Set k v ttl now = .ok c1) (hne : k1 ≠ k) :
    c1.Get k1 = c.Get k1 := by
  rw [Get_eq_find, Get_eq_find, find_Set_ne c c1 k k1 v ttl now hset hne]

/-- Witness of C18: `"foo"` and `"d"` share shard 3. -/
theorem Set_affects_only_its_key_witness :
    cacheA.shardIndex foo = .ok 3 ∧ cacheA.shardIndex keyD = .ok 3 ∧
      cacheA.Set keyD 9 1000000000 5 = .ok cacheAD ∧
      cacheA.Get foo = .ok (7, true) ∧ cacheAD.Get foo = cacheA.Get foo :=
  ⟨rfl, rfl, rfl, rfl,
    Set_affects_only_its_key cacheA cacheAD keyD foo 9 1000000000 5 rfl (by decide)⟩

/-! ## Invariants of the reachable states -/

theorem shardAt_natCast {T : Type} (c : InMemoryCache T) (j : Nat) (sh : shard T) :
    c.shardAt (j : Int) = .ok sh ↔ c.shards.get? j = some (some sh) := by
  have h0 : ¬ (j : Int) < 0 := by omega
  unfold InMemoryCache.shardAt
  rw [if_neg h0, Int.toNat_ofNat]
  cases c.shards.get? j with
  | none => simp
  | some s =>
    cases s with
    | none => simp
    | some sh1 => simp

/-- A write to one slot that stores only keys of that slot, next to keys the
slot held, keeps every key in its slot. -/
theorem placed_of_writesSlot {T : Type} (c c1 : InMemoryCache T) (i : Int) (sh sh1 : shard T)
    (hw : WritesSlot c c1 i sh1) (hs : c.shardAt i = .ok sh)
    (hfind : ∀ key item, sh1.find key = some item →
      sh.find key = some item ∨ c.shardIndex key = .ok i)
    (hp : c.Placed) : c1.Placed := by
  intro j sh2 key item hget hf
  have h1 : c1.shardAt (j : Int) = .ok sh2 := (shardAt_natCast c1 j sh2).mpr hget
  rw [shardIndex_congr c c1 hw.numShards_eq]
  rw [hw.shardAt_eq] at h1
  by_cases hji : (j : Int) = i
  · rw [if_pos hji] at h1
    cases h1
    rcases hfind key item hf with h | h
    · rw [← hji] at hs
      exact hp j sh key item ((shardAt_natCast c j sh).mp hs) h
    · rw [h, hji]
  · rw [if_neg hji] at h1
    exact hp j sh2 key item ((shardAt_natCast c j sh2).mp h1) hf

theorem apply_placed {T : Type} [Inhabited T] (c c1 : InMemoryCache T) (op : Op T)
    (hp : c.Placed) (h : c.apply op = .ok c1) : c1.Placed := by
  cases op with
  | set key value ttl now =>
    obtain ⟨i, sh, sh1, hi, hs, hw, _, hother⟩ := Set_spec c c1 key value ttl now h
    refine placed_of_writesSlot c c1 i sh sh1 hw hs ?_ hp
    intro k item hk
    by_cases hkk : k = key
    · rw [hkk]
      exact Or.inr hi
    · rw [hother k hkk] at hk
      exact Or.inl hk
  | get key =>
    simp only [InMemoryCache.apply] at h
    cases hg : c.Get key with
    | error e => rw [hg] at h; cases h
    | ok r => rw [hg] at h; cases h; exact hp
  | evict i now =>
    obtain ⟨sh, sh1, hs, hw, hf⟩ := evictExpiredItems_spec c c1 i now h
    refine placed_of_writesSlot c c1 i sh sh1 hw hs ?_ hp
    intro k item hk
    rw [hf k] at hk
    exact Or.inl (Option.filter_eq_some.mp hk).1
  | stop =>
    cases h
    exact hp

theorem NewInMemoryCache_placed {T : Type} (n e : Int) (c : InMemoryCache T)
    (h : NewInMemoryCache n e = .ok c) : c.Placed := by
  by_cases hn : n < 0
  · unfold NewInMemoryCache at h
    rw [if_pos hn] at h
    cases h
  · rw [NewInMemoryCache_eq n e (by omega)] at h
    cases h
    intro j sh key item hget hf
    simp only [List.get?_eq_getElem?, List.getElem?_replicate] at hget
    split at hget
    · simp only [Option.some.injEq] at hget
      rw [← hget] at hf
      cases hf
    · cases hget

theorem putShard_ready {T : Type} (c : InMemoryCache T) (i : Int) (sh1 : shard T)
    (hr : c.Ready) (hsome : sh1.items.isSome) : (c.putShard i sh1).Ready := by
  refine ⟨hr.numShards_pos, ?_, ?_⟩
  · simp only [InMemoryCache.putShard, List.length_set]
    exact hr.length_eq
  · intro s hs
    simp only [InMemoryCache.putShard] at hs
    rcases List.mem_or_eq_of_mem_set hs with h | h
    · exact hr.slots s h
    · obtain ⟨items⟩ := sh1
      cases items with
      | none => cases hsome
      | some m => exact ⟨m, h⟩

theorem Ready.items_isSome {T : Type} (c : InMemoryCache T) (hr : c.Ready) (i : Int)
    (sh : shard T) (hs : c.shardAt i = .ok sh) : sh.items.isSome := by
  have h0 := shardAt_nonneg c i sh hs
  have hi : ((i.toNat : Nat) : Int) = i := Int.toNat_of_nonneg h0
  rw [← hi] at hs
  have hget := (shardAt_natCast c i.toNat sh).mp hs
  obtain ⟨items, hitems⟩ := hr.slots (some sh) (List.get?_mem hget)
  cases hitems
  rfl

/-- Every operation that runs on a ready cache leaves it ready: the slice
keeps its length, every slot keeps a shard with a non-nil map, the shard
count is not written. -/
theorem apply_ready {T : Type} [Inhabited T] (c c1 : InMemoryCache T) (op : Op T)
    (hr : c.Ready) (h : c.apply op = .ok c1) : c1.Ready := by
  cases op with
  | set key value ttl now =>
    obtain ⟨i, sh, sh1, _, hs, hc1, hsome⟩ := Set_eq_putShard c c1 key value ttl now h
    subst hc1
    exact putShard_ready c i sh1 hr (hsome (Ready.items_isSome c hr i sh hs))
  | get key =>
    simp only [InMemoryCache.apply] at h
    cases hg : c.Get key with
    | error e => rw [hg] at h; cases h
    | ok r => rw [hg] at h; cases h; exact hr
  | evict i now =>
    obtain ⟨sh, _, hc1 | ⟨sh1, hc1, hsome⟩⟩ := evictExpiredItems_eq_putShard c c1 i now h
    · subst hc1
      exact hr
    · subst hc1
      exact putShard_ready c i sh1 hr hsome
  | stop =>
    cases h
    exact Ready.Stop c hr

theorem run_ready {T : Type} [Inhabited T] (ops : List (Op T)) (c c1 : InMemoryCache T)
    (hr : c.Ready) (h : c.run ops = .ok c1) : c1.Ready :=
  run_induction (fun a => a.Ready) ops c c1 (fun op _ a b ha hab => apply_ready a b op ha hab)
    hr h

/-- On a ready cache whose shard count does not vanish in `uint32`, `Get`
does not fail. -/
theorem Ready.Get_ok {T : Type} [Inhabited T] (c : InMemoryCache T) (hr : c.Ready)
    (hd : uint32 c.numShards ≠ 0) (key : Key) : ∃ r, c.Get key = .ok r := by
  obtain ⟨i, items, hi, _, _, hs⟩ := Ready.shard_of_key c hr hd key
  rw [Get_eq_find, find_eq c key i _ hi hs]
  exact ⟨_, rfl⟩

/-- In every state reachable from a cache built with a positive shard count
that does not vanish in `uint32`, the cache is ready, the shard count is the
one given, and `Set` and `Get` do not fail on any key. -/
theorem reachable_Set_Get_total {T : Type} [Inhabited T] (n e : Int) (c0 c : InMemoryCache T)
    (ops : List (Op T)) (hn : 1 ≤ n) (hd : uint32 n ≠ 0)
    (hnew : NewInMemoryCache n e = .ok c0) (hrun : c0.run ops = .ok c) :
    c.Ready ∧ c.numShards = n ∧
      (∀ key value ttl now, ∃ c1, c.Set key value ttl now = .ok c1) ∧
      (∀ key, ∃ r, c.Get key = .ok r) := by
  have hr : c.Ready := run_ready ops c0 c (NewInMemoryCache_ready n e c0 hn hnew) hrun
  have hn0 : c0.numShards = n := by
    rw [NewInMemoryCache_eq n e (by omega)] at hnew
    cases hnew
    rfl
  have hnc : c.numShards = n := (run_numShards ops c0 c hrun).trans hn0
  have hdc : uint32 c.numShards ≠ 0 := by rw [hnc]; exact hd
  refine ⟨hr, hnc, ?_, fun key => Ready.Get_ok c hr hdc key⟩
  intro key value ttl now
  obtain ⟨c1, h1, _⟩ := Ready.Set_then_Get c hr hdc key value ttl now
  exact ⟨c1, h1⟩

/-- C15. In every state reached from `NewInMemoryCache(numShards, ..)`, with
`numShards ≥ 1`, by operations `Set`, `Get`, sweep and `Stop` that ran, the
shard count is the one given, `shardIndex` is the function it was at
construction, every key stored in slot `j` is a key that `shardIndex` sends
to `j`, and so no key is stored in two slots. -/
theorem placement_invariant {T : Type} [Inhabited T] (n e : Int) (c0 c : InMemoryCache T)
    (ops : List (Op T)) (hn : 1 ≤ n)
    (hnew : NewInMemoryCache n e = .ok c0) (hrun : c0.run ops = .ok c) :
    c.numShards = n ∧ (∀ key, c.shardIndex key = c0.shardIndex key) ∧
      (∀ (j : Nat) (sh : shard T) (key : Key) (item : cacheItem T),
        c.shards.get? j = some (some sh) → sh.find key = some item →
          c.shardIndex key = .ok (j : Int)) ∧
      (∀ (j1 j2 : Nat) (sh1 sh2 : shard T) (key : Key) (item1 item2 : cacheItem T),
        c.shards.get? j1 = some (some sh1) → sh1.find key = some item1 →
        c.shards.get? j2 = some (some sh2) → sh2.find key = some item2 → j1 = j2) := by
  have hn0 : c0.numShards = n := by
    rw [NewInMemoryCache_eq n e (by omega)] at hnew
    cases hnew
    rfl
  have hnc : c.numShards = c0.numShards := run_numShards ops c0 c hrun
  have hp : c.Placed :=
    run_induction (fun a => a.Placed) ops c0 c
      (fun op _ a b ha hab => apply_placed a b op ha hab)
      (NewInMemoryCache_placed n e c0 hnew) hrun
  refine ⟨hnc.trans hn0, fun key => shardIndex_congr c0 c hnc key, hp, ?_⟩
  intro j1 j2 sh1 sh2 key item1 item2 hg1 hf1 hg2 hf2
  have h1 := hp j1 sh1 key item1 hg1 hf1
  have h2 := hp j2 sh2 key item2 hg2 hf2
  rw [h1] at h2
  simp only [Except.ok.injEq] at h2
  exact Int.ofNat_inj.mp h2

/-- Witness of C15: `cacheB`, reached from `cache4`. -/
theorem placement_invariant_witness :
    NewInMemoryCache 4 1000000000 = .ok cache4 ∧
      cache4.run (.set foo 7 2000000000 0 :: opsBefore) = .ok cacheB ∧
      cacheB.numShards = 4 ∧ (∀ key, cacheB.shardIndex key = cache4.shardIndex key) ∧
      (∀ (j : Nat) (sh : shard Nat) (key : Key) (item : cacheItem Nat),
        cacheB.shards.get? j = some (some sh) → sh.find key = some item →
          cacheB.shardIndex key = .ok (j : Int)) ∧
      (∀ (j1 j2 : Nat) (sh1 sh2 : shard Nat) (key : Key) (item1 item2 : cacheItem Nat),
        cacheB.shards.get? j1 = some (some sh1) → sh1.find key = some item1 →
        cacheB.shards.get? j2 = some (some sh2) → sh2.find key = some item2 → j1 = j2) :=
  ⟨rfl, rfl,
    placement_invariant 4 1000000000 cache4 cacheB (.set foo 7 2000000000 0 :: opsBefore)
      (by decide) rfl rfl⟩

/-- C16. With `numShards = 4294967296` the construction succeeds, the
cache is ready (the slice has `numShards` slots, each with a shard and a
non-nil map) and stays so, and yet every `Set` and every `Get` panics
dividing by zero. -/
theorem Set_Get_panic_on_ready_cache_with_2pow32_shards (T : Type) [Inhabited T]
    (evictTime : Int) :
    ∃ c : InMemoryCache T, NewInMemoryCache 4294967296 evictTime = .ok c ∧ c.Ready ∧
      (c.shards.length : Int) = 4294967296 ∧
      (∀ key value ttl now, c.Set key value ttl now = .error .divideByZero) ∧
      (∀ key, c.Get key = .error .divideByZero) := by
  have hnew := NewInMemoryCache_eq (T := T) 4294967296 evictTime (by decide)
  refine ⟨_, hnew, NewInMemoryCache_ready 4294967296 evictTime _ (by decide) hnew, ?_,
    fun _ _ _ _ => rfl, fun _ => rfl⟩
  simp only [List.length_replicate]
  decide

/-! ## One shard or many -/

theorem filter_filter_same {α : Type} (o : Option α) (p : α → Bool) :
    (o.filter p).filter p = o.filter p := by
  cases o with
  | none => rfl
  | some a =>
    cases hp : p a with
    | false => simp [Option.filter, hp]
    | true => simp [Option.filter, hp]

theorem Ready.shardAt_of_lt {T : Type} (c : InMemoryCache T) (hr : c.Ready) (i : Nat)
    (hi : (i : Int) < c.numShards) : ∃ sh, c.shardAt (i : Int) = .ok sh := by
  have hlen := hr.length_eq
  have hlt : i < c.shards.length := by omega
  obtain ⟨items, hitems⟩ := hr.slots _ (List.getElem_mem hlt)
  refine ⟨{ items := some items }, (shardAt_natCast c i _).mpr ?_⟩
  rw [List.get?_eq_getElem?, List.getElem?_eq_getElem hlt, hitems]

/-- The sweeps of the shards `is` of a ready cache, at one instant, all run;
they filter the item under each key of a swept shard and leave the other
keys alone. -/
theorem run_sweepsOf {T : Type} [Inhabited T] (now : Int) :
    ∀ (is : List Nat) (a : InMemoryCache T), a.Ready → (∀ i ∈ is, (i : Int) < a.numShards) →
      ∃ a1, a.run (sweepsOf now is) = .ok a1 ∧ a1.Ready ∧ a1.numShards = a.numShards ∧
        ∀ k o, a.find k = .ok o →
          ((∃ i ∈ is, a.shardIndex k = .ok (i : Int)) →
            a1.find k =
              .ok (o.filter (fun it => decide (timeSub now it.createdAt ≤ it.ttl)))) ∧
          ((¬ ∃ i ∈ is, a.shardIndex k = .ok (i : Int)) → a1.find k = .ok o) := by
  intro is
  induction is with
  | nil =>
    intro a hr _
    refine ⟨a, rfl, hr, rfl, ?_⟩
    intro k o ho
    refine ⟨?_, fun _ => ho⟩
    rintro ⟨i, hi, _⟩
    cases hi
  | cons i rest ih =>
    intro a hr hlt
    obtain ⟨sh, hs⟩ := Ready.shardAt_of_lt a hr i (hlt i (List.mem_cons_self _ _))
    obtain ⟨a2, ha2⟩ := evictExpiredItems_ok a (i : Int) now sh hs
    have hap : a.apply (.evict (i : Int) now) = .ok a2 := ha2
    have hr2 : a2.Ready := apply_ready a a2 _ hr hap
    have hn2 : a2.numShards = a.numShards := apply_numShards a a2 _ hap
    obtain ⟨a1, hrun, hr1, hn1, hfind⟩ := ih a2 hr2 (fun j hj => by
      rw [hn2]
      exact hlt j (List.mem_cons_of_mem _ hj))
    refine ⟨a1, ?_, hr1, hn1.trans hn2, ?_⟩
    · simp only [sweepsOf, List.map_cons, InMemoryCache.run]
      rw [hap]
      exact hrun
    · intro k o ho
      have hidx : ∀ j : Nat, a2.shardIndex k = .ok (j : Int) ↔ a.shardIndex k = .ok (j : Int) := by
        intro j
        rw [shardIndex_congr a a2 hn2]
      by_cases hki : a.shardIndex k = .ok (i : Int)
      · obtain ⟨o2, h1, h2⟩ := find_evict_own a a2 (i : Int) now k ha2 hki
        rw [ho] at h1
        cases h1
        obtain ⟨hin, hout⟩ := hfind k _ h2
        refine ⟨fun _ => ?_, fun hno => absurd ⟨i, List.mem_cons_self _ _, hki⟩ hno⟩
        by_cases hex : ∃ j ∈ rest, a2.shardIndex k = .ok (j : Int)
        · rw [hin hex, filter_filter_same]
        · exact hout hex
      · have h2 : a2.find k = .ok o := by
          rw [find_evict_other a a2 (i : Int) now k ha2 hki]
          exact ho
        obtain ⟨hin, hout⟩ := hfind k o h2
        constructor
        · rintro ⟨j, hj, hjk⟩
          rcases List.mem_cons.mp hj with rfl | hj
          · exact absurd hjk hki
          · exact hin ⟨j, hj, (hidx j).mpr hjk⟩
        · intro hno
          apply hout
          rintro ⟨j, hj, hjk⟩
          exact hno ⟨j, List.mem_cons_of_mem _ hj, (hidx j).mp hjk⟩

/-- On a ready cache whose shard count does not vanish in `uint32`, every
key has an item or none, without failure. -/
theorem Ready.find_ok {T : Type} (c : InMemoryCache T) (hr : c.Ready)
    (hd : uint32 c.numShards ≠ 0) (key : Key) :
    ∃ (i : Nat) (o : Option (cacheItem T)), c.shardIndex key = .ok (i : Int) ∧
      (i : Int) < c.numShards ∧ c.find key = .ok o := by
  obtain ⟨i, items, hi, h0, hlt, hs⟩ := Ready.shard_of_key c hr hd key
  have hcast : ((i.toNat : Nat) : Int) = i := Int.toNat_of_nonneg h0
  refine ⟨i.toNat, _, ?_, ?_, find_eq c key i _ hi hs⟩
  · rw [hcast]
    exact hi
  · rw [hcast]
    exact hlt

/-- The sweep of the whole of a ready cache whose shard count does not
vanish in `uint32` runs and filters the item under every key. -/
theorem Ready.sweepAll_spec {T : Type} [Inhabited T] (c : InMemoryCache T) (hr : c.Ready)
    (hd : uint32 c.numShards ≠ 0) (now : Int) :
    ∃ c1, c.sweepAll now = .ok c1 ∧ c1.Ready ∧ c1.numShards = c.numShards ∧
      ∀ k, ∃ o, c.find k = .ok o ∧
        c1.find k = .ok (o.filter (fun it => decide (timeSub now it.createdAt ≤ it.ttl))) := by
  obtain ⟨c1, hrun, hr1, hn1, hfind⟩ := run_sweepsOf now (List.range c.numShards.toNat) c hr
    (fun i hi => by
      have := List.mem_range.mp hi
      have := hr.numShards_pos
      omega)
  refine ⟨c1, hrun, hr1, hn1, ?_⟩
  intro k
  obtain ⟨i, o, hi, hlt, ho⟩ := Ready.find_ok c hr hd k
  exact ⟨o, ho, (hfind k o ho).1 ⟨i, List.mem_range.mpr (by omega), hi⟩⟩

/-- Two ready caches whose shard counts do not vanish in `uint32` and that
hold the same item under every key still do after the same timed
operations, which all run on both. -/
theorem runTimed_same_finds {T : Type} [Inhabited T] :
    ∀ (tops : List (TimedOp T)) (a b : InMemoryCache T),
      a.Ready → uint32 a.numShards ≠ 0 → b.Ready → uint32 b.numShards ≠ 0 →
      (∀ k, a.find k = b.find k) →
      ∃ a1 b1, a.runTimed tops = .ok a1 ∧ b.runTimed tops = .ok b1 ∧
        ∀ k, a1.find k = b1.find k := by
  intro tops
  induction tops with
  | nil =>
    intro a b _ _ _ _ h
    exact ⟨a, b, rfl, rfl, h⟩
  | cons op tops ih =>
    intro a b hra hda hrb hdb h
    cases op with
    | set key value ttl now =>
      obtain ⟨a2, ha2, _⟩ := Ready.Set_then_Get a hra hda key value ttl now
      obtain ⟨b2, hb2, _⟩ := Ready.Set_then_Get b hrb hdb key value ttl now
      have hapa : a.apply (.set key value ttl now) = .ok a2 := ha2
      have hapb : b.apply (.set key value ttl now) = .ok b2 := hb2
      have hfind : ∀ k, a2.find k = b2.find k := by
        intro k
        by_cases hk : k = key
        · rw [hk, find_Set_self a a2 key value ttl now ha2,
            find_Set_self b b2 key value ttl now hb2]
        · rw [find_Set_ne a a2 key k value ttl now ha2 hk,
            find_Set_ne b b2 key k value ttl now hb2 hk]
          exact h k
      obtain ⟨a1, b1, hra1, hrb1, hf1⟩ := ih a2 b2 (apply_ready a a2 _ hra hapa)
        (by rw [apply_numShards a a2 _ hapa]; exact hda) (apply_ready b b2 _ hrb hapb)
        (by rw [apply_numShards b b2 _ hapb]; exact hdb) hfind
      refine ⟨a1, b1, ?_, ?_, hf1⟩
      · simp only [InMemoryCache.runTimed, InMemoryCache.applyTimed]
        rw [ha2]
        exact hra1
      · simp only [InMemoryCache.runTimed, InMemoryCache.applyTimed]
        rw [hb2]
        exact hrb1
    | sweep now =>
      obtain ⟨a2, ha2, hra2, hna2, hfa⟩ := Ready.sweepAll_spec a hra hda now
      obtain ⟨b2, hb2, hrb2, hnb2, hfb⟩ := Ready.sweepAll_spec b hrb hdb now
      have hfind : ∀ k, a2.find k = b2.find k := by
        intro k
        obtain ⟨oa, hoa, hoa2⟩ := hfa k
        obtain ⟨ob, hob, hob2⟩ := hfb k
        have hk := h k
        rw [hoa, hob] at hk
        cases hk
        rw [hoa2, hob2]
      obtain ⟨a1, b1, hra1, hrb1, hf1⟩ := ih a2 b2 hra2 (by rw [hna2]; exact hda) hrb2
        (by rw [hnb2]; exact hdb) hfind
      refine ⟨a1, b1, ?_, ?_, hf1⟩
      · simp only [InMemoryCache.runTimed, InMemoryCache.applyTimed]
        rw [ha2]
        exact hra1
      · simp only [InMemoryCache.runTimed, InMemoryCache.applyTimed]
        rw [hb2]
        exact hrb1

theorem find_fresh {T : Type} (n e : Int) (c : InMemoryCache T) (hn : 1 ≤ n)
    (hd : uint32 n ≠ 0) (h : NewInMemoryCache n e = .ok c) (key : Key) :
    c.find key = .ok none := by
  have hr := NewInMemoryCache_ready n e c hn h
  have hp := NewInMemoryCache_placed n e c h
  rw [NewInMemoryCache_eq n e (by omega)] at h
  cases h
  obtain ⟨i, items, hi, _, _, hs⟩ := Ready.shard_of_key _ hr hd key
  rw [find_eq _ key i _ hi hs]
  cases hf : shard.find { items := some items } key with
  | none => rfl
  | some item =>
    have h0 := shardAt_nonneg _ i _ hs
    have hcast : ((i.toNat : Nat) : Int) = i := Int.toNat_of_nonneg h0
    rw [← hcast] at hs
    have hget := (shardAt_natCast _ i.toNat _).mp hs
    simp only [List.get?_eq_getElem?, List.getElem?_replicate] at hget
    split at hget
    · simp only [Option.some.injEq, shard.mk.injEq] at hget
      rw [← hget] at hf
      cases hf
    · cases hget

/-- For every shard count that is positive and does not vanish in `uint32`,
the sharded cache and the single-shard cache, driven by the same timed
operations, both run them all and then return the same result of `Get` on
every key. -/
theorem sharding_unobservable_below_2pow32 {T : Type} [Inhabited T] (n e e1 : Int)
    (cN c1 : InMemoryCache T) (tops : List (TimedOp T)) (hn : 1 ≤ n) (hd : uint32 n ≠ 0)
    (hN : NewInMemoryCache n e = .ok cN) (h1 : NewInMemoryCache 1 e1 = .ok c1) :
    ∃ a b, cN.runTimed tops = .ok a ∧ c1.runTimed tops = .ok b ∧
      ∀ k, a.Get k = b.Get k := by
  have hnN : cN.numShards = n := by
    rw [NewInMemoryCache_eq n e (by omega)] at hN
    cases hN
    rfl
  have hn1 : c1.numShards = 1 := by
    rw [NewInMemoryCache_eq 1 e1 (by omega)] at h1
    cases h1
    rfl
  obtain ⟨a, b, ha, hb, hf⟩ := runTimed_same_finds tops cN c1
    (NewInMemoryCache_ready n e cN hn hN) (by rw [hnN]; exact hd)
    (NewInMemoryCache_ready 1 e1 c1 (by omega) h1) (by rw [hn1]; decide)
    (fun k => by
      rw [find_fresh n e cN hn hd hN k, find_fresh 1 e1 c1 (by omega) (by decide) h1 k])
  refine ⟨a, b, ha, hb, ?_⟩
  intro k
  rw [Get_eq_find, Get_eq_find, hf k]

/-- C17. With `numShards = 4294967296` the sharded cache is told apart
from the single-shard one by the first operation: `Set("foo", ..)` panics
dividing by zero on the former, while on the latter it runs and
`Get("foo")` returns the value. -/
theorem sharding_observable_with_2pow32_shards :
    (NewInMemoryCache (T := Nat) 4294967296 1000000000).bind
        (fun c => c.runTimed [.set foo 7 5 0]) = .error .divideByZero ∧
      ((NewInMemoryCache (T := Nat) 1 1000000000).bind
        (fun c => c.runTimed [.set foo 7 5 0])).bind (fun c => c.Get foo) = .ok (7, true) :=
  ⟨rfl, rfl⟩

end Gcache
